import Mathlib

/-!
Shallow embedding of the olog-debate core (src/main.rs): the hypergraph
model, identifier canonicalization, json conversion, merge, and the
six-table relational persistence layer, together with proofs of the
specified properties.

Modelling conventions:
* Rust Uuid values are modelled as natural numbers; Uuid.new_v4 is a
  gensym threaded through functions as an explicit counter, so freshly
  minted uuids are pairwise distinct and distinct from earlier ones.
* A persisted id string is either the canonical text of a uuid
  (IdStr.valid u, produced by to_string) or some other string
  (IdStr.invalid s); Uuid.parse_str succeeds exactly on the former.
* Rust HashMap is modelled as an association list in insertion order:
  entry/or_insert keeps the first binding, insert replaces the value.
* SQLite tables are lists of rows; INSERT OR REPLACE on a table with a
  primary key removes the conflicting row and appends, and on the two
  link tables (which have no primary key) it is a plain append.
  Queries filter rows in order; rusqlite errors are the DbError type.
-/

/-- Model of Rust Uuid values. -/
abbrev Uuid := Nat

/-- A string sitting in an id position: either the canonical text of a
uuid or a non-uuid string. -/
inductive IdStr
  | valid (u : Uuid)
  | invalid (s : String)
deriving DecidableEq

/-- Model of Uuid.parse_str: succeeds exactly on canonical uuid text. -/
def parseUuid : IdStr → Option Uuid
  | .valid u => some u
  | .invalid _ => none

/-- Wire-schema node (JsonNodeSchema in main.rs). -/
structure JsonNodeSchema where
  id : IdStr
  label : String
deriving DecidableEq

/-- Wire-schema hyperedge (JsonHyperedgeSchema in main.rs). -/
structure JsonHyperedgeSchema where
  id : IdStr
  label : String
  sources : List IdStr
  targets : List IdStr
deriving DecidableEq

/-- Wire schema (JsonOlogSchema in main.rs). -/
structure JsonOlogSchema where
  title : String
  nodes : List JsonNodeSchema
  hyperedges : List JsonHyperedgeSchema
deriving DecidableEq

/-- Provenance record (Citation in main.rs). -/
structure Citation where
  id : Uuid
  title : String
  label : String
  text : String
deriving DecidableEq

/-- Concept node (Node in main.rs). -/
structure Node where
  id : Uuid
  label : String
deriving DecidableEq

/-- Relation hyperedge (Hyperedge in main.rs). -/
structure Hyperedge where
  id : Uuid
  label : String
  source : List Node
  target : List Node
  citations : List Citation
deriving DecidableEq

/-- Aggregate root (Olog in main.rs). -/
structure Olog where
  id : Uuid
  title : String
  nodes : List Node
  hyperedges : List Hyperedge
deriving DecidableEq

/-- First-match lookup in an association list (HashMap get / entry probe). -/
def alookup {α β : Type} [DecidableEq α] : List (α × β) → α → Option β
  | [], _ => none
  | (k, v) :: rest, k' => if k = k' then some v else alookup rest k'

/-- HashMap entry(k).or_insert_with(new uuid): an existing binding is
kept, otherwise a fresh uuid is minted from the counter and bound. -/
def entryOrInsert {α : Type} [DecidableEq α] (m : List (α × Uuid)) (k : α)
    (c : Nat) : Uuid × List (α × Uuid) × Nat :=
  match alookup m k with
  | some u => (u, m, c)
  | none => (c, m ++ [(k, c)], c + 1)

/-- HashMap insert: replaces the value of an existing key, else appends. -/
def insertReplace {α β : Type} [DecidableEq α] :
    List (α × β) → α → β → List (α × β)
  | [], k, v => [(k, v)]
  | (k', v') :: rest, k, v =>
    if k' = k then (k, v) :: rest else (k', v') :: insertReplace rest k v

/- ## Identifier canonicalizer (replace_ids_with_uuids, main.rs 381-409) -/

/-- Node-id rewriting loop of replace_ids_with_uuids. -/
def replaceNodeIds : List JsonNodeSchema → List (IdStr × Uuid) → Nat →
    List JsonNodeSchema × List (IdStr × Uuid) × Nat
  | [], m, c => ([], m, c)
  | jn :: rest, m, c =>
    let (u, m1, c1) := entryOrInsert m jn.id c
    let (ns, m2, c2) := replaceNodeIds rest m1 c1
    (⟨.valid u, jn.label⟩ :: ns, m2, c2)

/-- Source/target reference rewriting loop of replace_ids_with_uuids. -/
def replaceRefIds : List IdStr → List (IdStr × Uuid) → Nat →
    List IdStr × List (IdStr × Uuid) × Nat
  | [], m, c => ([], m, c)
  | k :: rest, m, c =>
    let (u, m1, c1) := entryOrInsert m k c
    let (ks, m2, c2) := replaceRefIds rest m1 c1
    (.valid u :: ks, m2, c2)

/-- Hyperedge rewriting loop of replace_ids_with_uuids: id, then
sources, then targets, over the one shared map. -/
def replaceHyperedgeIds : List JsonHyperedgeSchema → List (IdStr × Uuid) →
    Nat → List JsonHyperedgeSchema × List (IdStr × Uuid) × Nat
  | [], m, c => ([], m, c)
  | jh :: rest, m, c =>
    let (u, m1, c1) := entryOrInsert m jh.id c
    let (ss, m2, c2) := replaceRefIds jh.sources m1 c1
    let (ts, m3, c3) := replaceRefIds jh.targets m2 c2
    let (hs, m4, c4) := replaceHyperedgeIds rest m3 c3
    (⟨.valid u, jh.label, ss, ts⟩ :: hs, m4, c4)

/-- replace_ids_with_uuids: one shared raw-string-to-uuid map over node
ids, hyperedge ids and their source/target reference lists. -/
def replace_ids_with_uuids (j : JsonOlogSchema) (c : Nat) :
    JsonOlogSchema × Nat :=
  let (ns, m1, c1) := replaceNodeIds j.nodes [] c
  let (hs, _, c2) := replaceHyperedgeIds j.hyperedges m1 c1
  (⟨j.title, ns, hs⟩, c2)

/-- All raw-string id occurrences of a wire schema, in the order the
canonicalizer visits them. -/
def rawIdOccurrences (j : JsonOlogSchema) : List IdStr :=
  j.nodes.map JsonNodeSchema.id ++
    j.hyperedges.flatMap (fun h => h.id :: (h.sources ++ h.targets))

/- ## Schema codec (convert_json_olog_to_olog, main.rs 411-473) -/

/-- Node loop of convert_json_olog_to_olog: assigns a fresh uuid per
distinct string id and stores the node in a uuid-keyed map. -/
def convertNodes : List JsonNodeSchema → List (IdStr × Uuid) →
    List (Uuid × Node) → Nat →
    List (IdStr × Uuid) × List (Uuid × Node) × Nat
  | [], idm, nm, c => (idm, nm, c)
  | jn :: rest, idm, nm, c =>
    let (u, idm1, c1) := entryOrInsert idm jn.id c
    convertNodes rest idm1 (insertReplace nm u ⟨u, jn.label⟩) c1

/-- Hyperedge loop of convert_json_olog_to_olog: enters the hyperedge id
into the shared id map, then resolves each source/target string id via
the id map followed by the node map, dropping unresolved references. -/
def convertHyperedges (nm : List (Uuid × Node)) (cit : Citation) :
    List JsonHyperedgeSchema → List (IdStr × Uuid) → Nat →
    List Hyperedge × List (IdStr × Uuid) × Nat
  | [], idm, c => ([], idm, c)
  | jh :: rest, idm, c =>
    let (hu, idm1, c1) := entryOrInsert idm jh.id c
    let sources := jh.sources.filterMap
      (fun sid => (alookup idm1 sid).bind (fun u => alookup nm u))
    let targets := jh.targets.filterMap
      (fun tid => (alookup idm1 tid).bind (fun u => alookup nm u))
    let (hs, idm2, c2) := convertHyperedges nm cit rest idm1 c1
    (⟨hu, jh.label, sources, targets, [cit]⟩ :: hs, idm2, c2)

/-- convert_json_olog_to_olog: canonicalized schema plus one citation to
an Olog; the Olog itself receives a freshly minted uuid. -/
def convert_json_olog_to_olog (j : JsonOlogSchema) (cit : Citation)
    (c : Nat) : Olog × Nat :=
  let (idm, nm, c1) := convertNodes j.nodes [] [] c
  let nodes := nm.map Prod.snd
  let (hs, _, c2) := convertHyperedges nm cit j.hyperedges idm c1
  (⟨c2, j.title, nodes, hs⟩, c2 + 1)

/-- convert_olog_to_json (main.rs 647-688): pure structural flatten,
uuids rendered as their canonical text. -/
def convert_olog_to_json (olog : Olog) : JsonOlogSchema :=
  ⟨olog.title,
   olog.nodes.map (fun n => ⟨.valid n.id, n.label⟩),
   olog.hyperedges.map (fun h =>
     ⟨.valid h.id, h.label,
      h.source.map (fun n => .valid n.id),
      h.target.map (fun n => .valid n.id)⟩)⟩

/- ## Merge engine (merge_ologs, main.rs 475-529) -/

/-- Node dedup loop of merge_ologs: label-keyed entry/or_insert keeps
the first node seen for each label. -/
def mergeNodes : List Node → List (String × Node) → List (String × Node)
  | [], m => m
  | n :: rest, m =>
    mergeNodes rest
      (match alookup m n.label with
       | some _ => m
       | none => m ++ [(n.label, n)])

/-- The merged node list of two ologs, in first-occurrence order. -/
def mergedNodesOf (o1 o2 : Olog) : List Node :=
  (mergeNodes (o1.nodes ++ o2.nodes) []).map Prod.snd

/-- Label-based lookup into the merged node list
(find_node_by_label in main.rs). -/
def findNodeByLabel (merged : List Node) (label : String) : Option Node :=
  merged.find? (fun n => n.label = label)

/-- The dedup key of a hyperedge: its label together with its
label-resolved source and target node sequences. -/
def hkey (merged : List Node) (h : Hyperedge) :
    String × List Node × List Node :=
  (h.label,
   h.source.filterMap (fun n => findNodeByLabel merged n.label),
   h.target.filterMap (fun n => findNodeByLabel merged n.label))

/-- Hyperedge dedup loop of merge_ologs: key-keyed entry/or_insert; the
or_insert argument is evaluated eagerly, so a uuid is minted even for a
duplicate (and discarded), exactly as in the Rust source. -/
def mergeHyperedges (merged : List Node) :
    List Hyperedge → List ((String × List Node × List Node) × Hyperedge) →
    Nat → List ((String × List Node × List Node) × Hyperedge) × Nat
  | [], m, c => (m, c)
  | h :: rest, m, c =>
    let source_nodes := h.source.filterMap
      (fun n => findNodeByLabel merged n.label)
    let target_nodes := h.target.filterMap
      (fun n => findNodeByLabel merged n.label)
    let key := (h.label, source_nodes, target_nodes)
    let m1 := match alookup m key with
      | some _ => m
      | none =>
        m ++ [(key, ⟨c, h.label, source_nodes, target_nodes, h.citations⟩)]
    mergeHyperedges merged rest m1 (c + 1)

/-- merge_ologs: label-deduplicated node union, then key-deduplicated
hyperedge union; keeps the first olog id and title. -/
def merge_ologs (o1 o2 : Olog) (c : Nat) : Olog × Nat :=
  let merged_nodes := mergedNodesOf o1 o2
  let (hmap, c1) :=
    mergeHyperedges merged_nodes (o1.hyperedges ++ o2.hyperedges) [] c
  (⟨o1.id, o1.title, merged_nodes, hmap.map Prod.snd⟩, c1)

/- ## Persistence mapper (main.rs 92-325) -/

/-- Row of the Ologs table. -/
structure OlogRow where
  olog_id : IdStr
  title : String
deriving DecidableEq

/-- Row of the Nodes table. -/
structure NodeRow where
  node_id : IdStr
  label : String
  olog_id : IdStr
deriving DecidableEq

/-- Row of the Hyperedges table. -/
structure HyperedgeRow where
  hyperedge_id : IdStr
  label : String
  olog_id : IdStr
deriving DecidableEq

/-- Row of the Citations table. -/
structure CitationRow where
  citation_id : IdStr
  title : String
  label : String
  text : String
deriving DecidableEq

/-- The type column of Hyperedge_Links. -/
inductive LinkType
  | source
  | target
deriving DecidableEq

/-- Row of the Hyperedge_Links table (no primary key). -/
structure HyperedgeLinkRow where
  hyperedge_id : IdStr
  node_id : IdStr
  type : LinkType
deriving DecidableEq

/-- Row of the Citation_Links table (no primary key). -/
structure CitationLinkRow where
  hyperedge_id : IdStr
  citation_id : IdStr
deriving DecidableEq

/-- The six-table relational store of olog.db. -/
structure Db where
  ologs : List OlogRow
  nodes : List NodeRow
  hyperedges : List HyperedgeRow
  citations : List CitationRow
  hyperedgeLinks : List HyperedgeLinkRow
  citationLinks : List CitationLinkRow
deriving DecidableEq

/-- A store with all six tables empty. -/
def emptyDb : Db := ⟨[], [], [], [], [], []⟩

/-- Errors surfaced by rusqlite in the modelled paths. -/
inductive DbError
  | queryReturnedNoRows
  | invalidQuery
deriving DecidableEq

/-- INSERT OR REPLACE on the Ologs table (primary key olog_id). -/
def upsertOlogRow (rows : List OlogRow) (r : OlogRow) : List OlogRow :=
  rows.filter (fun x => ¬ x.olog_id = r.olog_id) ++ [r]

/-- INSERT OR REPLACE on the Nodes table (primary key node_id). -/
def upsertNodeRow (rows : List NodeRow) (r : NodeRow) : List NodeRow :=
  rows.filter (fun x => ¬ x.node_id = r.node_id) ++ [r]

/-- INSERT OR REPLACE on the Hyperedges table (primary key
hyperedge_id). -/
def upsertHyperedgeRow (rows : List HyperedgeRow) (r : HyperedgeRow) :
    List HyperedgeRow :=
  rows.filter (fun x => ¬ x.hyperedge_id = r.hyperedge_id) ++ [r]

/-- INSERT OR REPLACE on the Citations table (primary key citation_id). -/
def upsertCitationRow (rows : List CitationRow) (r : CitationRow) :
    List CitationRow :=
  rows.filter (fun x => ¬ x.citation_id = r.citation_id) ++ [r]

/-- The Nodes row written for a node of an olog. -/
def nodeRowOf (oid : Uuid) (n : Node) : NodeRow :=
  ⟨.valid n.id, n.label, .valid oid⟩

/-- The Hyperedges row written for a hyperedge of an olog. -/
def hedgeRowOf (oid : Uuid) (h : Hyperedge) : HyperedgeRow :=
  ⟨.valid h.id, h.label, .valid oid⟩

/-- The Citations row written for a citation. -/
def citationRowOf (c : Citation) : CitationRow :=
  ⟨.valid c.id, c.title, c.label, c.text⟩

/-- The Citation_Links row written for a citation of a hyperedge. -/
def citLinkOf (hid : Uuid) (c : Citation) : CitationLinkRow :=
  ⟨.valid hid, .valid c.id⟩

/-- The source Hyperedge_Links row written for a source node. -/
def sourceLinkOf (hid : Uuid) (n : Node) : HyperedgeLinkRow :=
  ⟨.valid hid, .valid n.id, .source⟩

/-- The target Hyperedge_Links row written for a target node. -/
def targetLinkOf (hid : Uuid) (n : Node) : HyperedgeLinkRow :=
  ⟨.valid hid, .valid n.id, .target⟩

/-- One node upsert of write_olog_to_db. -/
def writeNode (oid : Uuid) (db : Db) (n : Node) : Db :=
  { db with nodes := upsertNodeRow db.nodes (nodeRowOf oid n) }

/-- One citation upsert plus link insert of write_olog_to_db. -/
def writeCitation (hid : Uuid) (db : Db) (c : Citation) : Db :=
  { db with
    citations := upsertCitationRow db.citations (citationRowOf c),
    citationLinks := db.citationLinks ++ [citLinkOf hid c] }

/-- One hyperedge of write_olog_to_db: its row, its citations and
citation links, then one link row per source and per target node. -/
def writeHyperedge (oid : Uuid) (db : Db) (h : Hyperedge) : Db :=
  let db1 := { db with
    hyperedges := upsertHyperedgeRow db.hyperedges (hedgeRowOf oid h) }
  let db2 := h.citations.foldl (writeCitation h.id) db1
  let db3 := { db2 with
    hyperedgeLinks := db2.hyperedgeLinks ++ h.source.map (sourceLinkOf h.id) }
  { db3 with
    hyperedgeLinks := db3.hyperedgeLinks ++ h.target.map (targetLinkOf h.id) }

/-- write_olog_to_db (main.rs 258-313): upsert the olog row, every node
row, then every hyperedge with its citations and link rows, as one
transaction. -/
def write_olog_to_db (olog : Olog) (db : Db) : Db :=
  let db1 := { db with
    ologs := upsertOlogRow db.ologs ⟨.valid olog.id, olog.title⟩ }
  let db2 := olog.nodes.foldl (writeNode olog.id) db1
  olog.hyperedges.foldl (writeHyperedge olog.id) db2

/-- delete_olog_from_db (main.rs 315-325): removes only the Ologs rows
for the given id; no cascade. -/
def delete_olog_from_db (db : Db) (oid : Uuid) : Except DbError Db :=
  .ok { db with
    ologs := db.ologs.filter (fun r => ¬ r.olog_id = IdStr.valid oid) }

/-- Parse one Nodes row into a Node (read_olog_from_db node loop body). -/
def parseNodeRow (r : NodeRow) : Option Node :=
  (parseUuid r.node_id).map (fun u => Node.mk u r.label)

/-- The node list fetched for an olog id: rows with that owner, rows
whose id string fails to parse silently dropped (filter_map ok). -/
def readNodeList (db : Db) (oid : Uuid) : List Node :=
  (db.nodes.filter (fun r => r.olog_id = IdStr.valid oid)).filterMap
    parseNodeRow

/-- Sequential fallible map, stopping at the first error, as collecting
an iterator of Results into Result of Vec does. -/
def listMapExcept {α β : Type} (f : α → Except DbError β) :
    List α → Except DbError (List β)
  | [] => .ok []
  | a :: as =>
    match f a with
    | .error e => .error e
    | .ok b =>
      match listMapExcept f as with
      | .error e => .error e
      | .ok bs => .ok (b :: bs)

/-- The citation rows joined to a hyperedge id via Citation_Links. -/
def citationJoin (db : Db) (hid : Uuid) : List CitationRow :=
  (db.citationLinks.filter
      (fun cl => cl.hyperedge_id = IdStr.valid hid)).flatMap
    (fun cl => db.citations.filter
      (fun c => c.citation_id = cl.citation_id))

/-- Parse one joined Citations row; a malformed citation id is fatal. -/
def parseCitationRow (c : CitationRow) : Except DbError Citation :=
  match parseUuid c.citation_id with
  | none => .error .invalidQuery
  | some u => .ok ⟨u, c.title, c.label, c.text⟩

/-- Resolve one Hyperedge_Links row against the fetched node list: a
malformed node id string is fatal, and so is a node id absent from the
list (strict referential-integrity check). -/
def resolveLinkNode (nodes : List Node) (l : HyperedgeLinkRow) :
    Except DbError Node :=
  match parseUuid l.node_id with
  | none => .error .invalidQuery
  | some u =>
    match nodes.find? (fun n => n.id = u) with
    | some n => .ok n
    | none => .error .queryReturnedNoRows

/-- The source link rows of a hyperedge id (the type=source query). -/
def srcLinks (db : Db) (hid : Uuid) : List HyperedgeLinkRow :=
  db.hyperedgeLinks.filter (fun l =>
    l.hyperedge_id = IdStr.valid hid ∧ l.type = LinkType.source)

/-- The target link rows of a hyperedge id (the type=target query). -/
def tgtLinks (db : Db) (hid : Uuid) : List HyperedgeLinkRow :=
  db.hyperedgeLinks.filter (fun l =>
    l.hyperedge_id = IdStr.valid hid ∧ l.type = LinkType.target)

/-- Read one Hyperedges row: parse its id, join its citations, then
resolve its source and target link rows in order. -/
def readOneHyperedge (db : Db) (nodes : List Node) (r : HyperedgeRow) :
    Except DbError Hyperedge :=
  match parseUuid r.hyperedge_id with
  | none => .error .invalidQuery
  | some hid =>
    match listMapExcept parseCitationRow (citationJoin db hid) with
    | .error e => .error e
    | .ok cits =>
      match listMapExcept (resolveLinkNode nodes) (srcLinks db hid) with
      | .error e => .error e
      | .ok sources =>
        match listMapExcept (resolveLinkNode nodes) (tgtLinks db hid) with
        | .error e => .error e
        | .ok targets => .ok ⟨hid, r.label, sources, targets, cits⟩

/-- read_olog_from_db (main.rs 157-256): title row (NoRows if the olog
id is absent), node rows (invalid ids dropped), then each hyperedge row
with its citations and links (any failure aborts the read). -/
def read_olog_from_db (db : Db) (oid : Uuid) : Except DbError Olog :=
  match (db.ologs.filter (fun r => r.olog_id = IdStr.valid oid)).head? with
  | none => .error .queryReturnedNoRows
  | some orow =>
    match listMapExcept (readOneHyperedge db (readNodeList db oid))
        (db.hyperedges.filter (fun r => r.olog_id = IdStr.valid oid)) with
    | .error e => .error e
    | .ok hs => .ok ⟨oid, orow.title, readNodeList db oid, hs⟩

/- ## Auxiliary, spec-side definitions used by the theorems -/

/-- Pointwise label equality of two hyperedges: same relation label and
the same node-label sequences on each side. -/
def hedgeLabelCopy (a b : Hyperedge) : Bool :=
  a.label = b.label ∧
    a.source.map Node.label = b.source.map Node.label ∧
    a.target.map Node.label = b.target.map Node.label

/-- Pointwise label equality of two hyperedge lists. -/
def hedgesLabelCopy : List Hyperedge → List Hyperedge → Bool
  | [], [] => true
  | a :: as, b :: bs => hedgeLabelCopy a b && hedgesLabelCopy as bs
  | _, _ => false

/-- An olog h is a label copy of g: same node labels in the same order
and pointwise label-equal hyperedges. -/
def labelCopy (g h : Olog) : Bool :=
  decide (g.nodes.map Node.label = h.nodes.map Node.label) &&
    hedgesLabelCopy g.hyperedges h.hyperedges

/-- Reference function: first node per distinct label, skipping labels
already seen. -/
def firstPerLabel : List Node → List String → List Node
  | [], _ => []
  | n :: rest, seen =>
    if n.label ∈ seen then firstPerLabel rest seen
    else n :: firstPerLabel rest (n.label :: seen)

/-- Append a key if it is not already present (the key set of an
entry/or_insert map grows this way). -/
def insNew {α : Type} [DecidableEq α] (ks : List α) (k : α) : List α :=
  if k ∈ ks then ks else ks ++ [k]

/-- Invariant of a gensym-built id map: every minted uuid is below the
counter and no two keys share a uuid. -/
def MapInv (m : List (IdStr × Uuid)) (c : Nat) : Prop :=
  (∀ p ∈ m, p.2 < c) ∧ (m.map Prod.snd).Nodup

deriving instance DecidableEq for Except

/- ## Theorems -/

/-- C9: delete removes only the Ologs rows for the given id, leaving the
node, hyperedge, citation and link tables untouched, and a subsequent
read of that id fails with the no-rows (NotFound) error. -/
theorem delete_non_cascading (db : Db) (oid : Uuid) :
    ∃ db', delete_olog_from_db db oid = .ok db' ∧
      db'.nodes = db.nodes ∧ db'.hyperedges = db.hyperedges ∧
      db'.citations = db.citations ∧
      db'.hyperedgeLinks = db.hyperedgeLinks ∧
      db'.citationLinks = db.citationLinks ∧
      read_olog_from_db db' oid = .error .queryReturnedNoRows := by
  refine ⟨_, rfl, rfl, rfl, rfl, rfl, rfl, ?_⟩
  have hfil : ((db.ologs.filter
        (fun r => ¬ r.olog_id = IdStr.valid oid)).filter
        (fun r => r.olog_id = IdStr.valid oid)) = [] := by
    rw [List.filter_filter]
    apply List.filter_eq_nil_iff.mpr
    intro a _
    by_cases h : a.olog_id = IdStr.valid oid <;> simp [h]
  simp only [read_olog_from_db, delete_olog_from_db]
  rw [hfil]
  rfl

/-- C10: deleting an id that has no Ologs row succeeds and leaves the
store unchanged. -/
theorem delete_absent_id (db : Db) (oid : Uuid)
    (h : ∀ r ∈ db.ologs, ¬ r.olog_id = IdStr.valid oid) :
    delete_olog_from_db db oid = .ok db := by
  have hfil : db.ologs.filter
      (fun r => ¬ r.olog_id = IdStr.valid oid) = db.ologs := by
    apply List.filter_eq_self.mpr
    intro a ha
    simpa using h a ha
  unfold delete_olog_from_db
  rw [hfil]

/-- Witness for C10: deleting the absent id 0 from a store holding only
olog id 1 succeeds and returns the store unchanged. -/
theorem delete_absent_id_witness :
    (∀ r ∈ (Db.mk [⟨.valid 1, "t"⟩] [] [] [] [] []).ologs,
        ¬ r.olog_id = IdStr.valid 0) ∧
      delete_olog_from_db (Db.mk [⟨.valid 1, "t"⟩] [] [] [] [] []) 0 =
        .ok (Db.mk [⟨.valid 1, "t"⟩] [] [] [] [] []) :=
  ⟨by decide, delete_absent_id (Db.mk [⟨.valid 1, "t"⟩] [] [] [] [] []) 0
    (by decide)⟩

/-- Counterexample for C6: a store whose Nodes table holds a row with a
non-uuid id string, owned by olog 0; the read of olog 0 succeeds with
the node silently dropped instead of aborting. -/
theorem invalid_node_id_read_succeeds :
    (∃ r ∈ (Db.mk [⟨.valid 0, "t"⟩] [⟨.invalid "x", "lbl", .valid 0⟩]
        [] [] [] []).nodes, parseUuid r.node_id = none) ∧
      read_olog_from_db
        (Db.mk [⟨.valid 0, "t"⟩] [⟨.invalid "x", "lbl", .valid 0⟩]
          [] [] [] []) 0 = .ok ⟨0, "t", [], []⟩ := by
  constructor
  · exact ⟨⟨.invalid "x", "lbl", .valid 0⟩, by decide, rfl⟩
  · decide

/-- If one element of the list fails, the fallible map fails. -/
theorem listMapExcept_error_of_mem {α β : Type} (f : α → Except DbError β)
    {l : List α} {a : α} (ha : a ∈ l) (he : ∃ e, f a = .error e) :
    ∃ e, listMapExcept f l = .error e := by
  induction l with
  | nil => cases ha
  | cons b bs ih =>
    cases hfb : f b with
    | error e => exact ⟨e, by simp only [listMapExcept, hfb]⟩
    | ok v =>
      rcases List.mem_cons.mp ha with hab | ha'
      · obtain ⟨e, hae⟩ := he
        rw [hab] at hae
        rw [hae] at hfb
        cases hfb
      · obtain ⟨e, hrec⟩ := ih ha'
        exact ⟨e, by simp only [listMapExcept, hfb, hrec]⟩

/-- If reading one Hyperedges row of the olog fails, the whole read
fails. -/
theorem read_error_of_row {db : Db} {oid : Uuid} {r : HyperedgeRow}
    (h1 : r ∈ db.hyperedges) (h2 : r.olog_id = IdStr.valid oid)
    (he : ∃ e, readOneHyperedge db (readNodeList db oid) r = .error e) :
    ∃ e, read_olog_from_db db oid = .error e := by
  cases hh : (db.ologs.filter
      (fun x => x.olog_id = IdStr.valid oid)).head? with
  | none => exact ⟨.queryReturnedNoRows, by simp only [read_olog_from_db, hh]⟩
  | some orow =>
    have hmem : r ∈ db.hyperedges.filter
        (fun x => x.olog_id = IdStr.valid oid) :=
      List.mem_filter.mpr ⟨h1, by simp [h2]⟩
    obtain ⟨e, hrec⟩ :=
      listMapExcept_error_of_mem (readOneHyperedge db (readNodeList db oid))
        hmem he
    exact ⟨e, by simp only [read_olog_from_db, hh, hrec]⟩

/-- A Hyperedges row with a malformed id string fails to read. -/
theorem readOneHyperedge_error_of_bad_id {db : Db} {nodes : List Node}
    {r : HyperedgeRow} (hp : parseUuid r.hyperedge_id = none) :
    readOneHyperedge db nodes r = .error .invalidQuery := by
  simp only [readOneHyperedge, hp]

/-- If the citation join of a row contains a malformed citation id, or a
source/target link of the row fails to resolve, the row fails to read. -/
theorem readOneHyperedge_error_cases {db : Db} {nodes : List Node}
    {r : HyperedgeRow} {hid : Uuid}
    (hp : parseUuid r.hyperedge_id = some hid)
    (hbad :
      (∃ crow ∈ citationJoin db hid, parseUuid crow.citation_id = none) ∨
      (∃ l ∈ srcLinks db hid, ∃ e, resolveLinkNode nodes l = .error e) ∨
      (∃ l ∈ tgtLinks db hid, ∃ e, resolveLinkNode nodes l = .error e)) :
    ∃ e, readOneHyperedge db nodes r = .error e := by
  cases hc : listMapExcept parseCitationRow (citationJoin db hid) with
  | error e => exact ⟨e, by simp only [readOneHyperedge, hp, hc]⟩
  | ok cits =>
    rcases hbad with ⟨crow, hcm, hcp⟩ | ⟨l, hlm, e0, hres⟩ | ⟨l, hlm, e0, hres⟩
    · obtain ⟨e, habs⟩ := listMapExcept_error_of_mem parseCitationRow hcm
        ⟨.invalidQuery, by simp only [parseCitationRow, hcp]⟩
      rw [habs] at hc
      cases hc
    · obtain ⟨e, hs⟩ :=
        listMapExcept_error_of_mem (resolveLinkNode nodes) hlm ⟨e0, hres⟩
      exact ⟨e, by simp only [readOneHyperedge, hp, hc, hs]⟩
    · cases hs : listMapExcept (resolveLinkNode nodes) (srcLinks db hid) with
      | error e => exact ⟨e, by simp only [readOneHyperedge, hp, hc, hs]⟩
      | ok sources =>
        obtain ⟨e, ht⟩ :=
          listMapExcept_error_of_mem (resolveLinkNode nodes) hlm ⟨e0, hres⟩
        exact ⟨e, by simp only [readOneHyperedge, hp, hc, hs, ht]⟩

/-- C7: a source or target link row of a hyperedge of the olog whose
(valid) node id is not among the fetched nodes of that olog is a
referential-integrity failure: the read aborts with an error. -/
theorem dangling_link_aborts_read (db : Db) (oid : Uuid)
    (hrow : HyperedgeRow) (link : HyperedgeLinkRow) (hid u : Uuid)
    (h1 : hrow ∈ db.hyperedges) (h2 : hrow.olog_id = IdStr.valid oid)
    (h3 : parseUuid hrow.hyperedge_id = some hid)
    (h4 : link ∈ db.hyperedgeLinks)
    (h5 : link.hyperedge_id = IdStr.valid hid)
    (h6 : parseUuid link.node_id = some u)
    (h7 : u ∉ (readNodeList db oid).map Node.id) :
    ∃ e, read_olog_from_db db oid = .error e := by
  apply read_error_of_row h1 h2
  apply readOneHyperedge_error_cases h3
  have hfind : (readNodeList db oid).find? (fun n => n.id = u) = none := by
    apply List.find?_eq_none.mpr
    intro n hn
    simp only [decide_eq_true_eq]
    intro hnu
    exact h7 (List.mem_map.mpr ⟨n, hn, hnu⟩)
  have hres : resolveLinkNode (readNodeList db oid) link =
      .error .queryReturnedNoRows := by
    simp only [resolveLinkNode, h6, hfind]
  cases htyp : link.type with
  | source =>
    refine Or.inr (Or.inl ⟨link, ?_, .queryReturnedNoRows, hres⟩)
    simp [srcLinks, List.mem_filter, h4, h5, htyp]
  | target =>
    refine Or.inr (Or.inr ⟨link, ?_, .queryReturnedNoRows, hres⟩)
    simp [tgtLinks, List.mem_filter, h4, h5, htyp]

/-- Witness for C7: a store with one hyperedge of olog 0 whose single
source link points at node id 5, while the olog owns no nodes; the read
aborts. -/
theorem dangling_link_aborts_read_witness :
    ∃ e, read_olog_from_db
      (Db.mk [⟨.valid 0, "t"⟩] [] [⟨.valid 1, "r", .valid 0⟩] []
        [⟨.valid 1, .valid 5, .source⟩] []) 0 = .error e :=
  dangling_link_aborts_read
    (Db.mk [⟨.valid 0, "t"⟩] [] [⟨.valid 1, "r", .valid 0⟩] []
      [⟨.valid 1, .valid 5, .source⟩] []) 0
    ⟨.valid 1, "r", .valid 0⟩ ⟨.valid 1, .valid 5, .source⟩ 1 5
    (by decide) (by decide) (by decide) (by decide) (by decide) (by decide)
    (by decide)

/-- C6 (amended): a malformed persisted hyperedge id, a malformed
citation id joined to a hyperedge of the olog, or a malformed node id in
a link row of such a hyperedge aborts the read with an error; a
malformed id in a Nodes row, however, only causes that node row to be
silently skipped: a successful read returns exactly the validly-parsed
node rows of the olog. -/
theorem invalid_id_read_behavior :
    (∀ (db : Db) (oid : Uuid) (r : HyperedgeRow), r ∈ db.hyperedges →
      r.olog_id = IdStr.valid oid → parseUuid r.hyperedge_id = none →
      ∃ e, read_olog_from_db db oid = .error e) ∧
    (∀ (db : Db) (oid hid : Uuid) (r : HyperedgeRow)
      (cl : CitationLinkRow) (crow : CitationRow),
      r ∈ db.hyperedges → r.olog_id = IdStr.valid oid →
      parseUuid r.hyperedge_id = some hid →
      cl ∈ db.citationLinks → cl.hyperedge_id = IdStr.valid hid →
      crow ∈ db.citations → crow.citation_id = cl.citation_id →
      parseUuid crow.citation_id = none →
      ∃ e, read_olog_from_db db oid = .error e) ∧
    (∀ (db : Db) (oid hid : Uuid) (r : HyperedgeRow)
      (l : HyperedgeLinkRow),
      r ∈ db.hyperedges → r.olog_id = IdStr.valid oid →
      parseUuid r.hyperedge_id = some hid →
      l ∈ db.hyperedgeLinks → l.hyperedge_id = IdStr.valid hid →
      parseUuid l.node_id = none →
      ∃ e, read_olog_from_db db oid = .error e) ∧
    (∀ (db : Db) (oid : Uuid) (o : Olog),
      read_olog_from_db db oid = .ok o →
      o.nodes = (db.nodes.filter
        (fun nr => nr.olog_id = IdStr.valid oid)).filterMap parseNodeRow) := by
  refine ⟨?_, ?_, ?_, ?_⟩
  · intro db oid r h1 h2 h3
    exact read_error_of_row h1 h2
      ⟨.invalidQuery, readOneHyperedge_error_of_bad_id h3⟩
  · intro db oid hid r cl crow h1 h2 h3 h4 h5 h6 h7 h8
    apply read_error_of_row h1 h2
    apply readOneHyperedge_error_cases h3
    refine Or.inl ⟨crow, ?_, h8⟩
    unfold citationJoin
    apply List.mem_flatMap.mpr
    exact ⟨cl, List.mem_filter.mpr ⟨h4, by simp [h5]⟩,
      List.mem_filter.mpr ⟨h6, by simp [h7]⟩⟩
  · intro db oid hid r l h1 h2 h3 h4 h5 h6
    apply read_error_of_row h1 h2
    apply readOneHyperedge_error_cases h3
    have hres : resolveLinkNode (readNodeList db oid) l =
        .error .invalidQuery := by
      simp only [resolveLinkNode, h6]
    cases htyp : l.type with
    | source =>
      refine Or.inr (Or.inl ⟨l, ?_, .invalidQuery, hres⟩)
      simp [srcLinks, List.mem_filter, h4, h5, htyp]
    | target =>
      refine Or.inr (Or.inr ⟨l, ?_, .invalidQuery, hres⟩)
      simp [tgtLinks, List.mem_filter, h4, h5, htyp]
  · intro db oid o hok
    cases hh : (db.ologs.filter
        (fun x => x.olog_id = IdStr.valid oid)).head? with
    | none =>
      simp only [read_olog_from_db, hh] at hok
      cases hok
    | some orow =>
      cases hm : listMapExcept
          (readOneHyperedge db (readNodeList db oid))
          (db.hyperedges.filter
            (fun x => x.olog_id = IdStr.valid oid)) with
      | error e =>
        simp only [read_olog_from_db, hh, hm] at hok
        cases hok
      | ok hs =>
        simp only [read_olog_from_db, hh, hm, Except.ok.injEq] at hok
        subst hok
        rfl

/-- Witness for C6 (amended): a malformed hyperedge id string aborts the
read of olog 0. -/
theorem invalid_id_read_behavior_witness :
    ∃ e, read_olog_from_db
      (Db.mk [⟨.valid 0, "t"⟩] [] [⟨.invalid "h", "r", .valid 0⟩] [] [] [])
      0 = .error e :=
  invalid_id_read_behavior.1
    (Db.mk [⟨.valid 0, "t"⟩] [] [⟨.invalid "h", "r", .valid 0⟩] [] [] [])
    0 ⟨.invalid "h", "r", .valid 0⟩ (by decide) (by decide) (by decide)

/-- A value found by association lookup is among the stored values. -/
theorem alookup_mem_values {α β : Type} [DecidableEq α]
    {m : List (α × β)} {k : α} {v : β} (h : alookup m k = some v) :
    v ∈ m.map Prod.snd := by
  induction m with
  | nil => cases h
  | cons p rest ih =>
    obtain ⟨k', v'⟩ := p
    by_cases hk : k' = k
    · simp only [alookup, hk, if_pos rfl] at h
      cases h
      simp
    · simp only [alookup, if_neg hk] at h
      simpa using Or.inr (ih h)

/-- A node found by label lookup is a member of the merged node list. -/
theorem findNodeByLabel_mem {merged : List Node} {l : String} {n : Node}
    (h : findNodeByLabel merged l = some n) : n ∈ merged :=
  List.mem_of_find?_eq_some h

/-- Every hyperedge produced by the conversion loop references only
nodes stored in the node map. -/
theorem convertHyperedges_closure (nm : List (Uuid × Node))
    (cit : Citation) :
    ∀ (hs : List JsonHyperedgeSchema) (idm : List (IdStr × Uuid)) (c : Nat)
      (h : Hyperedge), h ∈ (convertHyperedges nm cit hs idm c).1 →
      ∀ n : Node, n ∈ h.source ∨ n ∈ h.target → n ∈ nm.map Prod.snd := by
  intro hs
  induction hs with
  | nil => intro idm c h hh; cases hh
  | cons jh rest ih =>
    intro idm c h hh n hn
    rcases he : entryOrInsert idm jh.id c with ⟨hu, idm1, c1⟩
    rcases hr : convertHyperedges nm cit rest idm1 c1 with ⟨hs2, idm2, c2⟩
    simp only [convertHyperedges, he, hr] at hh
    rcases List.mem_cons.mp hh with hh1 | hh2
    · subst hh1
      rcases hn with hsrc | htgt
      · obtain ⟨sid, _, hres⟩ := List.mem_filterMap.mp hsrc
        obtain ⟨u, _, hnm⟩ := Option.bind_eq_some.mp hres
        exact alookup_mem_values hnm
      · obtain ⟨tid, _, hres⟩ := List.mem_filterMap.mp htgt
        obtain ⟨u, _, hnm⟩ := Option.bind_eq_some.mp hres
        exact alookup_mem_values hnm
    · exact ih idm1 c1 h (by rw [hr]; exact hh2) n hn

/-- Every hyperedge stored by the merge loop references only merged
nodes, provided the incoming map already does. -/
theorem mergeHyperedges_closure (merged : List Node) :
    ∀ (hs : List Hyperedge)
      (m : List ((String × List Node × List Node) × Hyperedge)) (c : Nat),
      (∀ p ∈ m, (∀ n ∈ p.2.source, n ∈ merged) ∧
        (∀ n ∈ p.2.target, n ∈ merged)) →
      ∀ p ∈ (mergeHyperedges merged hs m c).1,
        (∀ n ∈ p.2.source, n ∈ merged) ∧ (∀ n ∈ p.2.target, n ∈ merged) := by
  intro hs
  induction hs with
  | nil => intro m c hm p hp; exact hm p hp
  | cons h rest ih =>
    intro m c hm p hp
    simp only [mergeHyperedges] at hp
    cases halk : alookup m (h.label,
        h.source.filterMap (fun n => findNodeByLabel merged n.label),
        h.target.filterMap (fun n => findNodeByLabel merged n.label)) with
    | some q =>
      rw [halk] at hp
      exact ih m (c + 1) hm p hp
    | none =>
      rw [halk] at hp
      refine ih _ (c + 1) ?_ p hp
      intro q hq
      rcases List.mem_append.mp hq with hq1 | hq2
      · exact hm q hq1
      · simp only [List.mem_singleton] at hq2
        subst hq2
        constructor
        · intro n hn
          obtain ⟨x, _, hfind⟩ := List.mem_filterMap.mp hn
          exact findNodeByLabel_mem hfind
        · intro n hn
          obtain ⟨x, _, hfind⟩ := List.mem_filterMap.mp hn
          exact findNodeByLabel_mem hfind

/-- Every element of a successful fallible map comes from a successful
application to some input element. -/
theorem listMapExcept_ok_mem {α β : Type} {f : α → Except DbError β}
    {l : List α} {bs : List β} (h : listMapExcept f l = .ok bs) :
    ∀ b ∈ bs, ∃ a ∈ l, f a = .ok b := by
  induction l generalizing bs with
  | nil =>
    simp only [listMapExcept] at h
    cases h
    intro b hb
    cases hb
  | cons a as ih =>
    simp only [listMapExcept] at h
    cases hfa : f a with
    | error e => rw [hfa] at h; cases h
    | ok v =>
      rw [hfa] at h
      cases hrec : listMapExcept f as with
      | error e => rw [hrec] at h; cases h
      | ok vs =>
        rw [hrec] at h
        cases h
        intro b hb
        rcases List.mem_cons.mp hb with hb1 | hb2
        · exact ⟨a, List.mem_cons_self a as, by rw [hfa, hb1]⟩
        · obtain ⟨a', ha', hfa'⟩ := ih hrec b hb2
          exact ⟨a', List.mem_cons_of_mem a ha', hfa'⟩

/-- A link row that resolves successfully resolves to a fetched node. -/
theorem resolveLinkNode_ok_mem {nodes : List Node} {l : HyperedgeLinkRow}
    {n : Node} (h : resolveLinkNode nodes l = .ok n) : n ∈ nodes := by
  unfold resolveLinkNode at h
  cases hp : parseUuid l.node_id with
  | none => simp only [hp] at h; cases h
  | some u =>
    simp only [hp] at h
    cases hf : nodes.find? (fun x => x.id = u) with
    | none => simp only [hf] at h; cases h
    | some m =>
      simp only [hf, Except.ok.injEq] at h
      subst h
      exact List.mem_of_find?_eq_some hf

/-- A hyperedge read from a row references only fetched nodes. -/
theorem readOneHyperedge_closure {db : Db} {nodes : List Node}
    {r : HyperedgeRow} {h : Hyperedge}
    (hok : readOneHyperedge db nodes r = .ok h) :
    (∀ n ∈ h.source, n ∈ nodes) ∧ (∀ n ∈ h.target, n ∈ nodes) := by
  unfold readOneHyperedge at hok
  cases hp : parseUuid r.hyperedge_id with
  | none => simp only [hp] at hok; cases hok
  | some hid =>
    simp only [hp] at hok
    cases hc : listMapExcept parseCitationRow (citationJoin db hid) with
    | error e => simp only [hc] at hok; cases hok
    | ok cits =>
      simp only [hc] at hok
      cases hsrc : listMapExcept (resolveLinkNode nodes) (srcLinks db hid) with
      | error e => simp only [hsrc] at hok; cases hok
      | ok sources =>
        simp only [hsrc] at hok
        cases htgt : listMapExcept (resolveLinkNode nodes)
            (tgtLinks db hid) with
        | error e => simp only [htgt] at hok; cases hok
        | ok targets =>
          simp only [htgt, Except.ok.injEq] at hok
          subst hok
          constructor
          · intro n hn
            obtain ⟨lrow, _, hres⟩ := listMapExcept_ok_mem hsrc n hn
            exact resolveLinkNode_ok_mem hres
          · intro n hn
            obtain ⟨lrow, _, hres⟩ := listMapExcept_ok_mem htgt n hn
            exact resolveLinkNode_ok_mem hres

/-- C5: referential closure. Every node appearing in a source or target
sequence of a hyperedge of an Olog produced by schema conversion, by a
merge, or by a store read, is a member of that same Olog node set. -/
theorem referential_closure :
    (∀ (j : JsonOlogSchema) (cit : Citation) (c : Nat) (h : Hyperedge),
      h ∈ (convert_json_olog_to_olog j cit c).1.hyperedges →
      ∀ n : Node, n ∈ h.source ∨ n ∈ h.target →
        n ∈ (convert_json_olog_to_olog j cit c).1.nodes) ∧
    (∀ (o1 o2 : Olog) (c : Nat) (h : Hyperedge),
      h ∈ (merge_ologs o1 o2 c).1.hyperedges →
      ∀ n : Node, n ∈ h.source ∨ n ∈ h.target →
        n ∈ (merge_ologs o1 o2 c).1.nodes) ∧
    (∀ (db : Db) (oid : Uuid) (o : Olog),
      read_olog_from_db db oid = .ok o →
      ∀ h ∈ o.hyperedges, ∀ n : Node, n ∈ h.source ∨ n ∈ h.target →
        n ∈ o.nodes) := by
  refine ⟨?_, ?_, ?_⟩
  · intro j cit c h hh n hn
    rcases h1 : convertNodes j.nodes [] [] c with ⟨idm, nm, c1⟩
    rcases h2 : convertHyperedges nm cit j.hyperedges idm c1 with
      ⟨hs, idm2, c2⟩
    simp only [convert_json_olog_to_olog, h1, h2] at hh ⊢
    exact convertHyperedges_closure nm cit j.hyperedges idm c1 h
      (by rw [h2]; exact hh) n hn
  · intro o1 o2 c h hh n hn
    rcases hm : mergeHyperedges (mergedNodesOf o1 o2)
        (o1.hyperedges ++ o2.hyperedges) [] c with ⟨hmap, c1⟩
    simp only [merge_ologs, hm] at hh ⊢
    obtain ⟨p, hp, hph⟩ := List.mem_map.mp hh
    subst hph
    have := mergeHyperedges_closure (mergedNodesOf o1 o2)
      (o1.hyperedges ++ o2.hyperedges) [] c (by intro q hq; cases hq) p
      (by rw [hm]; exact hp)
    rcases hn with hsrc | htgt
    · exact this.1 n hsrc
    · exact this.2 n htgt
  · intro db oid o hok h hh n hn
    unfold read_olog_from_db at hok
    cases hhd : (db.ologs.filter
        (fun x => x.olog_id = IdStr.valid oid)).head? with
    | none => rw [hhd] at hok; cases hok
    | some orow =>
      rw [hhd] at hok
      cases hm : listMapExcept (readOneHyperedge db (readNodeList db oid))
          (db.hyperedges.filter
            (fun x => x.olog_id = IdStr.valid oid)) with
      | error e => rw [hm] at hok; cases hok
      | ok hs =>
        rw [hm] at hok
        cases hok
        obtain ⟨row, _, hrow⟩ := listMapExcept_ok_mem hm h hh
        have := readOneHyperedge_closure hrow
        rcases hn with hsrc | htgt
        · exact this.1 n hsrc
        · exact this.2 n htgt

/-- Witness for C5: in the conversion of a one-node, one-hyperedge
schema, the resolved source node of the hyperedge is in the node set. -/
theorem referential_closure_witness :
    (⟨1, "r", [⟨0, "a"⟩], [], [⟨7, "t", "l", "x"⟩]⟩ : Hyperedge) ∈
      (convert_json_olog_to_olog
        ⟨"t", [⟨.invalid "n1", "a"⟩],
          [⟨.invalid "e", "r", [.invalid "n1"], []⟩]⟩
        ⟨7, "t", "l", "x"⟩ 0).1.hyperedges ∧
    ((⟨0, "a"⟩ : Node) ∈
        (⟨1, "r", [⟨0, "a"⟩], [], [⟨7, "t", "l", "x"⟩]⟩ : Hyperedge).source ∨
      (⟨0, "a"⟩ : Node) ∈
        (⟨1, "r", [⟨0, "a"⟩], [], [⟨7, "t", "l", "x"⟩]⟩ : Hyperedge).target) ∧
    (⟨0, "a"⟩ : Node) ∈
      (convert_json_olog_to_olog
        ⟨"t", [⟨.invalid "n1", "a"⟩],
          [⟨.invalid "e", "r", [.invalid "n1"], []⟩]⟩
        ⟨7, "t", "l", "x"⟩ 0).1.nodes :=
  ⟨by decide, by decide,
    referential_closure.1
      ⟨"t", [⟨.invalid "n1", "a"⟩],
        [⟨.invalid "e", "r", [.invalid "n1"], []⟩]⟩
      ⟨7, "t", "l", "x"⟩ 0
      ⟨1, "r", [⟨0, "a"⟩], [], [⟨7, "t", "l", "x"⟩]⟩
      (by decide) ⟨0, "a"⟩ (by decide)⟩

/-- Association lookup fails exactly when the key is absent. -/
theorem alookup_eq_none_iff {α β : Type} [DecidableEq α]
    {m : List (α × β)} {k : α} :
    alookup m k = none ↔ k ∉ m.map Prod.fst := by
  induction m with
  | nil => simp [alookup]
  | cons p rest ih =>
    obtain ⟨k', v'⟩ := p
    by_cases hk : k' = k
    · subst hk
      simp [alookup]
    · simp [alookup, hk, ih, Ne.symm hk]

/-- firstPerLabel only depends on which labels have been seen. -/
theorem firstPerLabel_congr_seen {s1 s2 : List String}
    (h : ∀ l, l ∈ s1 ↔ l ∈ s2) :
    ∀ ns : List Node, firstPerLabel ns s1 = firstPerLabel ns s2 := by
  intro ns
  induction ns generalizing s1 s2 with
  | nil => rfl
  | cons n rest ih =>
    by_cases hn : n.label ∈ s1
    · rw [firstPerLabel, firstPerLabel, if_pos hn, if_pos ((h n.label).mp hn)]
      exact ih h
    · rw [firstPerLabel, firstPerLabel, if_neg hn,
        if_neg (fun hc => hn ((h n.label).mpr hc))]
      refine congrArg _ (ih ?_)
      intro l
      simp only [List.mem_cons]
      exact or_congr Iff.rfl (h l)

/-- The node-merge loop appends exactly the first node of each unseen
label, in first-occurrence order. -/
theorem mergeNodes_eq (ns : List Node) :
    ∀ m : List (String × Node), mergeNodes ns m =
      m ++ (firstPerLabel ns (m.map Prod.fst)).map (fun n => (n.label, n)) := by
  induction ns with
  | nil => intro m; simp [mergeNodes, firstPerLabel]
  | cons n rest ih =>
    intro m
    cases halk : alookup m n.label with
    | some q =>
      have hmem : n.label ∈ m.map Prod.fst := by
        by_contra hc
        rw [alookup_eq_none_iff.mpr hc] at halk
        cases halk
      simp only [mergeNodes, halk]
      rw [ih m, firstPerLabel, if_pos hmem]
    | none =>
      have hmem : n.label ∉ m.map Prod.fst := alookup_eq_none_iff.mp halk
      simp only [mergeNodes, halk]
      rw [ih (m ++ [(n.label, n)]), firstPerLabel, if_neg hmem]
      have hseen : firstPerLabel rest ((m ++ [(n.label, n)]).map Prod.fst) =
          firstPerLabel rest (n.label :: m.map Prod.fst) := by
        apply firstPerLabel_congr_seen
        intro l
        simp [List.mem_append, or_comm]
      rw [hseen]
      simp

/-- The merged node list is the first node per label, in order. -/
theorem mergedNodesOf_eq (o1 o2 : Olog) :
    mergedNodesOf o1 o2 = firstPerLabel (o1.nodes ++ o2.nodes) [] := by
  unfold mergedNodesOf
  rw [mergeNodes_eq]
  simp only [List.map_nil, List.nil_append, List.map_map]
  exact List.map_id _

/-- Filtering firstPerLabel by one label leaves the first matching
input node, unless the label was already seen. -/
theorem firstPerLabel_filter (l : String) :
    ∀ (ns : List Node) (seen : List String),
      (firstPerLabel ns seen).filter (fun n => n.label = l) =
        if l ∈ seen then [] else (ns.find? (fun n => n.label = l)).toList := by
  intro ns
  induction ns with
  | nil => intro seen; by_cases h : l ∈ seen <;> simp [firstPerLabel, h]
  | cons n rest ih =>
    intro seen
    by_cases hn : n.label ∈ seen
    · rw [firstPerLabel, if_pos hn, ih seen]
      by_cases hl : l ∈ seen
      · simp [hl]
      · have hne : ¬ n.label = l := fun hc => hl (hc ▸ hn)
        simp [hl, List.find?, hne]
    · rw [firstPerLabel, if_neg hn]
      by_cases hnl : n.label = l
      · subst hnl
        have hl : n.label ∉ seen := hn
        rw [List.filter, ih (n.label :: seen)]
        simp [List.find?, hl]
      · rw [List.filter]
        have : (decide (n.label = l)) = false := by simp [hnl]
        rw [this, ih (n.label :: seen)]
        by_cases hl : l ∈ seen
        · simp [hl, List.mem_cons]
        · have hlc : l ∉ n.label :: seen := by
            intro hc
            rcases List.mem_cons.mp hc with h1 | h2
            · exact hnl h1.symm
            · exact hl h2
          rw [if_neg hlc, if_neg hl]
          simp only [List.find?_cons, this]

/-- firstPerLabel has one node per distinct unseen label. -/
theorem firstPerLabel_length :
    ∀ (ns : List Node) (seen : List String),
      (firstPerLabel ns seen).length =
        ((ns.map Node.label).toFinset \ seen.toFinset).card := by
  intro ns
  induction ns with
  | nil => intro seen; simp [firstPerLabel]
  | cons n rest ih =>
    intro seen
    by_cases hn : n.label ∈ seen
    · rw [firstPerLabel, if_pos hn, ih seen]
      congr 1
      rw [List.map_cons, List.toFinset_cons,
        Finset.insert_sdiff_of_mem _ (List.mem_toFinset.mpr hn)]
    · rw [firstPerLabel, if_neg hn, List.length_cons, ih (n.label :: seen)]
      have hset : (rest.map Node.label).toFinset \
            (n.label :: seen).toFinset =
          ((n.label :: rest.map Node.label).toFinset \ seen.toFinset).erase
            n.label := by
        ext x
        simp only [Finset.mem_sdiff, List.mem_toFinset, List.mem_cons,
          Finset.mem_erase]
        constructor
        · rintro ⟨hx, hns⟩
          push_neg at hns
          exact ⟨hns.1, Or.inr hx, hns.2⟩
        · rintro ⟨hxn, hx, hs⟩
          rcases hx with hx1 | hx2
          · exact absurd hx1 hxn
          · exact ⟨hx2, by push_neg; exact ⟨hxn, hs⟩⟩
      have hmem : n.label ∈
          (n.label :: rest.map Node.label).toFinset \ seen.toFinset := by
        simp [hn]
      rw [hset, Finset.card_erase_add_one hmem, List.map_cons]

/-- C3: merge node deduplication. The merged node list has exactly one
node per distinct label occurring in either input, and for every label
the surviving node is the first occurrence of that label in input order
(first olog first), keeping that node and hence its uuid; its length is
the number of distinct labels. -/
theorem merge_node_dedup (o1 o2 : Olog) (c : Nat) :
    (merge_ologs o1 o2 c).1.nodes.length =
      ((o1.nodes ++ o2.nodes).map Node.label).dedup.length ∧
    ∀ l : String,
      (merge_ologs o1 o2 c).1.nodes.filter (fun n => n.label = l) =
        ((o1.nodes ++ o2.nodes).find? (fun n => n.label = l)).toList := by
  rcases hm : mergeHyperedges (mergedNodesOf o1 o2)
      (o1.hyperedges ++ o2.hyperedges) [] c with ⟨hmap, c1⟩
  constructor
  · simp only [merge_ologs, hm, mergedNodesOf_eq]
    rw [firstPerLabel_length]
    simp only [List.toFinset_nil, Finset.sdiff_empty, List.card_toFinset]
  · intro l
    simp only [merge_ologs, hm, mergedNodesOf_eq]
    rw [firstPerLabel_filter]
    simp

/-- The key list of the hyperedge-merge map is the fold of insNew over
the dedup keys of the input hyperedges. -/
theorem mergeHyperedges_keys (merged : List Node) :
    ∀ (hs : List Hyperedge)
      (m : List ((String × List Node × List Node) × Hyperedge)) (c : Nat),
      ((mergeHyperedges merged hs m c).1).map Prod.fst =
        (hs.map (hkey merged)).foldl insNew (m.map Prod.fst) := by
  intro hs
  induction hs with
  | nil => intro m c; rfl
  | cons h rest ih =>
    intro m c
    simp only [mergeHyperedges, List.map_cons, List.foldl_cons]
    cases halk : alookup m (h.label,
        h.source.filterMap (fun n => findNodeByLabel merged n.label),
        h.target.filterMap (fun n => findNodeByLabel merged n.label)) with
    | some q =>
      have hmem : hkey merged h ∈ m.map Prod.fst := by
        by_contra hc
        rw [alookup_eq_none_iff.mpr (by
          simpa only [hkey] using hc)] at halk
        cases halk
      dsimp only
      rw [ih m (c + 1), insNew, if_pos hmem]
    | none =>
      have hmem : hkey merged h ∉ m.map Prod.fst := by
        have := alookup_eq_none_iff.mp halk
        simpa only [hkey] using this
      dsimp only
      rw [ih _ (c + 1), insNew, if_neg hmem]
      simp [hkey]

/-- insNew leaves the key list unchanged when every key is present. -/
theorem foldl_insNew_subset {α : Type} [DecidableEq α] :
    ∀ (K ks : List α), (∀ k ∈ K, k ∈ ks) → K.foldl insNew ks = ks := by
  intro K
  induction K with
  | nil => intro ks _; rfl
  | cons k rest ih =>
    intro ks hsub
    rw [List.foldl_cons, insNew, if_pos (hsub k (List.mem_cons_self k rest))]
    exact ih ks (fun x hx => hsub x (List.mem_cons_of_mem k hx))

/-- insNew appends all keys when they are fresh and pairwise distinct. -/
theorem foldl_insNew_disjoint {α : Type} [DecidableEq α] :
    ∀ (K ks : List α), K.Nodup → (∀ k ∈ K, k ∉ ks) →
      K.foldl insNew ks = ks ++ K := by
  intro K
  induction K with
  | nil => intro ks _ _; simp
  | cons k rest ih =>
    intro ks hnd hdis
    rw [List.foldl_cons, insNew,
      if_neg (hdis k (List.mem_cons_self k rest))]
    rw [ih (ks ++ [k]) (List.Nodup.of_cons hnd) ?_]
    · simp
    · intro x hx
      intro hc
      rcases List.mem_append.mp hc with hc1 | hc2
      · exact hdis x (List.mem_cons_of_mem k hx) hc1
      · rw [List.mem_singleton] at hc2
        subst hc2
        exact (List.nodup_cons.mp hnd).1 hx

/-- The dedup key of a hyperedge depends only on its label and the
label sequences of its sides. -/
theorem hkey_of_labelCopy {merged : List Node} {a b : Hyperedge}
    (h : hedgeLabelCopy a b = true) : hkey merged a = hkey merged b := by
  simp only [hedgeLabelCopy, decide_eq_true_eq] at h
  obtain ⟨hl, hs, ht⟩ := h
  have key_src : ∀ x : Hyperedge,
      x.source.filterMap (fun n => findNodeByLabel merged n.label) =
        (x.source.map Node.label).filterMap (findNodeByLabel merged) := by
    intro x
    rw [List.filterMap_map]
    rfl
  have key_tgt : ∀ x : Hyperedge,
      x.target.filterMap (fun n => findNodeByLabel merged n.label) =
        (x.target.map Node.label).filterMap (findNodeByLabel merged) := by
    intro x
    rw [List.filterMap_map]
    rfl
  simp only [hkey, key_src, key_tgt, hl, hs, ht]

/-- Pointwise label-equal hyperedge lists have equal key lists. -/
theorem keys_of_hedgesLabelCopy {merged : List Node} :
    ∀ {as bs : List Hyperedge}, hedgesLabelCopy as bs = true →
      bs.map (hkey merged) = as.map (hkey merged) := by
  intro as
  induction as with
  | nil =>
    intro bs h
    cases bs with
    | nil => rfl
    | cons b bs' => simp [hedgesLabelCopy] at h
  | cons a as' ih =>
    intro bs h
    cases bs with
    | nil => simp [hedgesLabelCopy] at h
    | cons b bs' =>
      simp only [hedgesLabelCopy, Bool.and_eq_true] at h
      simp only [List.map_cons, hkey_of_labelCopy h.1, ih h.2]

/-- Counterexample for C2: a graph with two hyperedges that share the
dedup key (same label, same resolved node sequences) shrinks when merged
with a fresh-uuid copy of itself: the merge keeps one hyperedge, not
two. -/
theorem merge_self_shrinks_duplicate_keys :
    labelCopy
        ⟨1, "g", [⟨0, "a"⟩],
          [⟨1, "r", [⟨0, "a"⟩], [], []⟩, ⟨2, "r", [⟨0, "a"⟩], [], []⟩]⟩
        ⟨50, "g", [⟨10, "a"⟩],
          [⟨11, "r", [⟨10, "a"⟩], [], []⟩,
            ⟨12, "r", [⟨10, "a"⟩], [], []⟩]⟩ = true ∧
      ¬ ((merge_ologs
          ⟨1, "g", [⟨0, "a"⟩],
            [⟨1, "r", [⟨0, "a"⟩], [], []⟩, ⟨2, "r", [⟨0, "a"⟩], [], []⟩]⟩
          ⟨50, "g", [⟨10, "a"⟩],
            [⟨11, "r", [⟨10, "a"⟩], [], []⟩,
              ⟨12, "r", [⟨10, "a"⟩], [], []⟩]⟩ 100).1.hyperedges.length =
        (⟨1, "g", [⟨0, "a"⟩],
          [⟨1, "r", [⟨0, "a"⟩], [], []⟩, ⟨2, "r", [⟨0, "a"⟩], [], []⟩]⟩ :
            Olog).hyperedges.length) := by
  decide

/-- C2 (amended): merging a graph g with a label copy of itself yields
one hyperedge per distinct dedup key of g (key = label plus
label-resolved source and target sequences); when the keys of the
hyperedges of g are pairwise distinct, the merged hyperedge count equals
the hyperedge count of g, not double. -/
theorem merge_self_hyperedge_count (g h : Olog) (c : Nat)
    (hcopy : labelCopy g h = true)
    (hkeys : (g.hyperedges.map (hkey (mergedNodesOf g h))).Nodup) :
    (merge_ologs g h c).1.hyperedges.length = g.hyperedges.length := by
  rcases hm : mergeHyperedges (mergedNodesOf g h)
      (g.hyperedges ++ h.hyperedges) [] c with ⟨hmap, c1⟩
  simp only [merge_ologs, hm]
  have hlen : hmap.length = (hmap.map Prod.fst).length := by simp
  have hkeyeq := mergeHyperedges_keys (mergedNodesOf g h)
    (g.hyperedges ++ h.hyperedges) [] c
  rw [hm] at hkeyeq
  simp only [List.map_append, List.map_nil] at hkeyeq
  have hcopy2 : hedgesLabelCopy g.hyperedges h.hyperedges = true := by
    simp only [labelCopy, Bool.and_eq_true] at hcopy
    exact hcopy.2
  rw [keys_of_hedgesLabelCopy hcopy2, List.foldl_append] at hkeyeq
  rw [foldl_insNew_disjoint _ [] hkeys (by intro k _ hc; cases hc)]
    at hkeyeq
  rw [foldl_insNew_subset _ _ (by intro k hk; simpa using hk)] at hkeyeq
  simp only [List.nil_append] at hkeyeq
  rw [List.length_map, hlen, hkeyeq, List.length_map]

/-- Witness for C2 (amended): merging a one-hyperedge graph with a
fresh-uuid copy of itself keeps exactly one hyperedge. -/
theorem merge_self_hyperedge_count_witness :
    labelCopy ⟨1, "g", [⟨0, "a"⟩], [⟨1, "r", [⟨0, "a"⟩], [], []⟩]⟩
        ⟨50, "g", [⟨10, "a"⟩], [⟨11, "r", [⟨10, "a"⟩], [], []⟩]⟩ = true ∧
      ((⟨1, "g", [⟨0, "a"⟩],
          [⟨1, "r", [⟨0, "a"⟩], [], []⟩]⟩ : Olog).hyperedges.map
        (hkey (mergedNodesOf
          ⟨1, "g", [⟨0, "a"⟩], [⟨1, "r", [⟨0, "a"⟩], [], []⟩]⟩
          ⟨50, "g", [⟨10, "a"⟩], [⟨11, "r", [⟨10, "a"⟩], [], []⟩]⟩))).Nodup ∧
      (merge_ologs ⟨1, "g", [⟨0, "a"⟩], [⟨1, "r", [⟨0, "a"⟩], [], []⟩]⟩
          ⟨50, "g", [⟨10, "a"⟩], [⟨11, "r", [⟨10, "a"⟩], [], []⟩]⟩
          100).1.hyperedges.length =
        (⟨1, "g", [⟨0, "a"⟩],
          [⟨1, "r", [⟨0, "a"⟩], [], []⟩]⟩ : Olog).hyperedges.length :=
  ⟨by decide, by decide,
    merge_self_hyperedge_count
      ⟨1, "g", [⟨0, "a"⟩], [⟨1, "r", [⟨0, "a"⟩], [], []⟩]⟩
      ⟨50, "g", [⟨10, "a"⟩], [⟨11, "r", [⟨10, "a"⟩], [], []⟩]⟩ 100
      (by decide) (by decide)⟩

/-- Lookup distributes over association-list append. -/
theorem alookup_append {α β : Type} [DecidableEq α]
    (m1 m2 : List (α × β)) (k : α) :
    alookup (m1 ++ m2) k =
      match alookup m1 k with
      | some v => some v
      | none => alookup m2 k := by
  induction m1 with
  | nil => rfl
  | cons p rest ih =>
    obtain ⟨k', v'⟩ := p
    by_cases hk : k' = k
    · simp [alookup, hk]
    · simp [alookup, hk, ih]

/-- A successful lookup is preserved by appending bindings. -/
theorem alookup_append_left {α β : Type} [DecidableEq α]
    {m1 : List (α × β)} {k : α} {v : β} (m2 : List (α × β))
    (h : alookup m1 k = some v) : alookup (m1 ++ m2) k = some v := by
  rw [alookup_append, h]

/-- A found binding is a member of the association list. -/
theorem alookup_mem {α β : Type} [DecidableEq α] :
    ∀ {m : List (α × β)} {k : α} {v : β},
      alookup m k = some v → (k, v) ∈ m := by
  intro m
  induction m with
  | nil => intro k v h; cases h
  | cons p rest ih =>
    intro k v h
    obtain ⟨k', v'⟩ := p
    by_cases hk : k' = k
    · rw [alookup, if_pos hk] at h
      cases h
      subst hk
      exact List.mem_cons_self _ _
    · rw [alookup, if_neg hk] at h
      exact List.mem_cons_of_mem _ (ih h)

/-- If the stored values are pairwise distinct, two keys bound to the
same value are equal. -/
theorem mem_values_nodup_inj {α β : Type} [DecidableEq α] :
    ∀ {m : List (α × β)} {a b : α} {v : β},
      (m.map Prod.snd).Nodup → (a, v) ∈ m → (b, v) ∈ m → a = b := by
  intro m
  induction m with
  | nil => intro a b v _ ha; cases ha
  | cons p rest ih =>
    intro a b v hnd ha hb
    obtain ⟨k', v'⟩ := p
    rw [List.map_cons, List.nodup_cons] at hnd
    rcases List.mem_cons.mp ha with ha1 | ha2
    · rcases List.mem_cons.mp hb with hb1 | hb2
      · cases ha1; cases hb1; rfl
      · cases ha1
        exact absurd (List.mem_map.mpr ⟨(b, v), hb2, rfl⟩) hnd.1
    · rcases List.mem_cons.mp hb with hb1 | hb2
      · cases hb1
        exact absurd (List.mem_map.mpr ⟨(a, v), ha2, rfl⟩) hnd.1
      · exact ih hnd.2 ha2 hb2

/-- Lookup is injective on an association list with distinct values. -/
theorem alookup_inj {m : List (IdStr × Uuid)}
    (hnd : (m.map Prod.snd).Nodup) {a b : IdStr} {v : Uuid}
    (ha : alookup m a = some v) (hb : alookup m b = some v) : a = b :=
  mem_values_nodup_inj hnd (alookup_mem ha) (alookup_mem hb)

/-- entry/or_insert binds the probed key to the returned uuid. -/
theorem entryOrInsert_lookup {m : List (IdStr × Uuid)} {k : IdStr}
    {c : Nat} :
    alookup (entryOrInsert m k c).2.1 k = some (entryOrInsert m k c).1 := by
  cases halk : alookup m k with
  | some u => simp only [entryOrInsert, halk]
  | none =>
    simp only [entryOrInsert, halk]
    rw [alookup_append, halk]
    simp [alookup]

/-- entry/or_insert never rebinds an existing key. -/
theorem entryOrInsert_mono {m : List (IdStr × Uuid)} {k k' : IdStr}
    {c : Nat} {v : Uuid} (h : alookup m k' = some v) :
    alookup (entryOrInsert m k c).2.1 k' = some v := by
  cases halk : alookup m k with
  | some u => simpa only [entryOrInsert, halk] using h
  | none =>
    simp only [entryOrInsert, halk]
    exact alookup_append_left _ h

/-- entry/or_insert only advances the uuid counter. -/
theorem entryOrInsert_le {m : List (IdStr × Uuid)} {k : IdStr} {c : Nat} :
    c ≤ (entryOrInsert m k c).2.2 := by
  cases halk : alookup m k with
  | some u => simp [entryOrInsert, halk]
  | none => simp [entryOrInsert, halk]

/-- entry/or_insert preserves the gensym map invariant. -/
theorem entryOrInsert_inv {m : List (IdStr × Uuid)} {k : IdStr} {c : Nat}
    (h : MapInv m c) : MapInv (entryOrInsert m k c).2.1
      (entryOrInsert m k c).2.2 := by
  cases halk : alookup m k with
  | some u => simpa only [entryOrInsert, halk] using h
  | none =>
    simp only [entryOrInsert, halk]
    constructor
    · intro p hp
      rcases List.mem_append.mp hp with hp1 | hp2
      · exact Nat.lt_succ_of_lt (h.1 p hp1)
      · rw [List.mem_singleton] at hp2
        subst hp2
        exact Nat.lt_succ_self c
    · rw [List.map_append]
      simp only [List.map_cons, List.map_nil]
      rw [List.nodup_append]
      refine ⟨h.2, List.nodup_singleton c, ?_⟩
      intro v hv hv2
      rw [List.mem_singleton] at hv2
      subst hv2
      obtain ⟨p, hp, hpv⟩ := List.mem_map.mp hv
      exact absurd (hpv ▸ h.1 p hp) (lt_irrefl _)

/-- Pointwise-equal functions give equal maps. -/
theorem map_congr_mem {α β : Type} :
    ∀ {l : List α} {f g : α → β}, (∀ a ∈ l, f a = g a) →
      l.map f = l.map g := by
  intro l
  induction l with
  | nil => intro f g _; rfl
  | cons a rest ih =>
    intro f g h
    rw [List.map_cons, List.map_cons, h a (List.mem_cons_self a rest),
      ih (fun x hx => h x (List.mem_cons_of_mem a hx))]

/-- Mapping commutes with flatMap. -/
theorem map_flatMap_comm {α β γ : Type} (F : β → γ) (g : α → List β) :
    ∀ l : List α, (l.flatMap g).map F = l.flatMap (fun a => (g a).map F) := by
  intro l
  induction l with
  | nil => rfl
  | cons a rest ih =>
    simp only [List.flatMap_cons, List.map_append, ih]

/-- Specification of the reference-rewriting loop: the map only grows
(existing bindings survive), the counter only advances, the invariant is
preserved, each output is the final binding of its raw id, and every
visited raw id is bound in the final map. -/
theorem replaceRefIds_spec :
    ∀ (ids : List IdStr) (m : List (IdStr × Uuid)) (c : Nat),
      (∀ k v, alookup m k = some v →
        alookup (replaceRefIds ids m c).2.1 k = some v) ∧
      c ≤ (replaceRefIds ids m c).2.2 ∧
      (MapInv m c →
        MapInv (replaceRefIds ids m c).2.1 (replaceRefIds ids m c).2.2) ∧
      (replaceRefIds ids m c).1 = ids.map (fun k =>
        IdStr.valid ((alookup (replaceRefIds ids m c).2.1 k).getD 0)) ∧
      ∀ k ∈ ids, (alookup (replaceRefIds ids m c).2.1 k).isSome = true := by
  intro ids
  induction ids with
  | nil =>
    intro m c
    exact ⟨fun k v h => h, le_refl c, id, rfl, fun k hk => absurd hk
      (List.not_mem_nil k)⟩
  | cons k0 rest ih =>
    intro m c
    rcases he : entryOrInsert m k0 c with ⟨u, m1, c1⟩
    have hlk : alookup m1 k0 = some u := by
      have := entryOrInsert_lookup (m := m) (k := k0) (c := c)
      rw [he] at this
      exact this
    have hmono1 : ∀ k v, alookup m k = some v → alookup m1 k = some v := by
      intro k v h
      have := entryOrInsert_mono (k := k0) (c := c) h
      rw [he] at this
      exact this
    have hle1 : c ≤ c1 := by
      have := entryOrInsert_le (m := m) (k := k0) (c := c)
      rw [he] at this
      exact this
    have hinv1 : MapInv m c → MapInv m1 c1 := by
      intro h
      have := entryOrInsert_inv (k := k0) h
      rw [he] at this
      exact this
    rcases hr : replaceRefIds rest m1 c1 with ⟨outs, m2, c2⟩
    have ihh := ih m1 c1
    rw [hr] at ihh
    simp only at ihh
    obtain ⟨ihm, ihle, ihinv, ihout, ihsome⟩ := ihh
    simp only [replaceRefIds, he, hr]
    refine ⟨fun k v h => ihm k v (hmono1 k v h), le_trans hle1 ihle,
      fun h => ihinv (hinv1 h), ?_, ?_⟩
    · rw [List.map_cons]
      have hk0 : alookup m2 k0 = some u := ihm k0 u hlk
      rw [hk0]
      exact congrArg _ ihout
    · intro k hk
      rcases List.mem_cons.mp hk with hk1 | hk2
      · subst hk1
        rw [ihm k u hlk]
        rfl
      · exact ihsome k hk2

/-- Specification of the node-id rewriting loop of the canonicalizer. -/
theorem replaceNodeIds_spec :
    ∀ (ns : List JsonNodeSchema) (m : List (IdStr × Uuid)) (c : Nat),
      (∀ k v, alookup m k = some v →
        alookup (replaceNodeIds ns m c).2.1 k = some v) ∧
      c ≤ (replaceNodeIds ns m c).2.2 ∧
      (MapInv m c →
        MapInv (replaceNodeIds ns m c).2.1 (replaceNodeIds ns m c).2.2) ∧
      (replaceNodeIds ns m c).1 = ns.map (fun jn =>
        ⟨IdStr.valid ((alookup (replaceNodeIds ns m c).2.1 jn.id).getD 0),
          jn.label⟩) ∧
      ∀ jn ∈ ns, (alookup (replaceNodeIds ns m c).2.1 jn.id).isSome = true := by
  intro ns
  induction ns with
  | nil =>
    intro m c
    exact ⟨fun k v h => h, le_refl c, id, rfl, fun jn hjn => absurd hjn
      (List.not_mem_nil jn)⟩
  | cons jn0 rest ih =>
    intro m c
    rcases he : entryOrInsert m jn0.id c with ⟨u, m1, c1⟩
    have hlk : alookup m1 jn0.id = some u := by
      have := entryOrInsert_lookup (m := m) (k := jn0.id) (c := c)
      rw [he] at this
      exact this
    have hmono1 : ∀ k v, alookup m k = some v → alookup m1 k = some v := by
      intro k v h
      have := entryOrInsert_mono (k := jn0.id) (c := c) h
      rw [he] at this
      exact this
    have hle1 : c ≤ c1 := by
      have := entryOrInsert_le (m := m) (k := jn0.id) (c := c)
      rw [he] at this
      exact this
    have hinv1 : MapInv m c → MapInv m1 c1 := by
      intro h
      have := entryOrInsert_inv (k := jn0.id) h
      rw [he] at this
      exact this
    rcases hr : replaceNodeIds rest m1 c1 with ⟨outs, m2, c2⟩
    have ihh := ih m1 c1
    rw [hr] at ihh
    simp only at ihh
    obtain ⟨ihm, ihle, ihinv, ihout, ihsome⟩ := ihh
    simp only [replaceNodeIds, he, hr]
    refine ⟨fun k v h => ihm k v (hmono1 k v h), le_trans hle1 ihle,
      fun h => ihinv (hinv1 h), ?_, ?_⟩
    · rw [List.map_cons]
      have hk0 : alookup m2 jn0.id = some u := ihm jn0.id u hlk
      rw [hk0]
      exact congrArg _ ihout
    · intro jn hjn
      rcases List.mem_cons.mp hjn with hk1 | hk2
      · rw [hk1, ihm jn0.id u hlk]
        rfl
      · exact ihsome jn hk2

/-- Specification of the hyperedge rewriting loop of the canonicalizer:
growth, counter monotonicity, invariant preservation, the rewritten
hyperedges as final-map lookups, and definedness of every visited raw
occurrence. -/
theorem replaceHyperedgeIds_spec :
    ∀ (hs : List JsonHyperedgeSchema) (m : List (IdStr × Uuid)) (c : Nat),
      (∀ k v, alookup m k = some v →
        alookup (replaceHyperedgeIds hs m c).2.1 k = some v) ∧
      c ≤ (replaceHyperedgeIds hs m c).2.2 ∧
      (MapInv m c → MapInv (replaceHyperedgeIds hs m c).2.1
        (replaceHyperedgeIds hs m c).2.2) ∧
      (replaceHyperedgeIds hs m c).1 = hs.map (fun jh =>
        ⟨IdStr.valid ((alookup (replaceHyperedgeIds hs m c).2.1 jh.id).getD 0),
          jh.label,
          jh.sources.map (fun k => IdStr.valid
            ((alookup (replaceHyperedgeIds hs m c).2.1 k).getD 0)),
          jh.targets.map (fun k => IdStr.valid
            ((alookup (replaceHyperedgeIds hs m c).2.1 k).getD 0))⟩) ∧
      ∀ k ∈ hs.flatMap (fun jh => jh.id :: (jh.sources ++ jh.targets)),
        (alookup (replaceHyperedgeIds hs m c).2.1 k).isSome = true := by
  intro hs
  induction hs with
  | nil =>
    intro m c
    exact ⟨fun k v h => h, le_refl c, id, rfl, fun k hk => absurd hk
      (List.not_mem_nil k)⟩
  | cons jh0 rest ih =>
    intro m c
    rcases he : entryOrInsert m jh0.id c with ⟨u, mA, cA⟩
    have hlk : alookup mA jh0.id = some u := by
      have := entryOrInsert_lookup (m := m) (k := jh0.id) (c := c)
      rw [he] at this
      exact this
    have hmonoA : ∀ k v, alookup m k = some v → alookup mA k = some v := by
      intro k v h
      have := entryOrInsert_mono (k := jh0.id) (c := c) h
      rw [he] at this
      exact this
    have hleA : c ≤ cA := by
      have := entryOrInsert_le (m := m) (k := jh0.id) (c := c)
      rw [he] at this
      exact this
    have hinvA : MapInv m c → MapInv mA cA := by
      intro h
      have := entryOrInsert_inv (k := jh0.id) h
      rw [he] at this
      exact this
    rcases hsrc : replaceRefIds jh0.sources mA cA with ⟨ss, mB, cB⟩
    have hspecB := replaceRefIds_spec jh0.sources mA cA
    rw [hsrc] at hspecB
    simp only at hspecB
    obtain ⟨hmonoB, hleB, hinvB, houtB, hsomeB⟩ := hspecB
    rcases htgt : replaceRefIds jh0.targets mB cB with ⟨ts, mC, cC⟩
    have hspecC := replaceRefIds_spec jh0.targets mB cB
    rw [htgt] at hspecC
    simp only at hspecC
    obtain ⟨hmonoC, hleC, hinvC, houtC, hsomeC⟩ := hspecC
    rcases hrec : replaceHyperedgeIds rest mC cC with ⟨houts, mD, cD⟩
    have ihh := ih mC cC
    rw [hrec] at ihh
    simp only at ihh
    obtain ⟨hmonoD, hleD, hinvD, houtD, hsomeD⟩ := ihh
    simp only [replaceHyperedgeIds, he, hsrc, htgt, hrec]
    have hmonoBD : ∀ k v, alookup mB k = some v →
        alookup mD k = some v := fun k v h => hmonoD k v (hmonoC k v h)
    have hmonoAD : ∀ k v, alookup mA k = some v →
        alookup mD k = some v := fun k v h => hmonoBD k v (hmonoB k v h)
    refine ⟨fun k v h => hmonoAD k v (hmonoA k v h),
      le_trans hleA (le_trans hleB (le_trans hleC hleD)),
      fun h => hinvD (hinvC (hinvB (hinvA h))), ?_, ?_⟩
    · rw [List.map_cons]
      have hid : alookup mD jh0.id = some u := hmonoAD jh0.id u hlk
      rw [hid]
      have hss : ss = jh0.sources.map (fun k =>
          IdStr.valid ((alookup mD k).getD 0)) := by
        rw [houtB]
        apply map_congr_mem
        intro k hk
        obtain ⟨v, hv⟩ := Option.isSome_iff_exists.mp (hsomeB k hk)
        rw [hv, hmonoBD k v hv]
      have hts : ts = jh0.targets.map (fun k =>
          IdStr.valid ((alookup mD k).getD 0)) := by
        rw [houtC]
        apply map_congr_mem
        intro k hk
        obtain ⟨v, hv⟩ := Option.isSome_iff_exists.mp (hsomeC k hk)
        rw [hv, hmonoD k v hv]
      rw [hss, hts, houtD]
      simp only [Option.getD_some]
    · intro k hk
      rw [List.flatMap_cons] at hk
      rcases List.mem_append.mp hk with hk1 | hk2
      · rcases List.mem_cons.mp hk1 with hk3 | hk4
        · subst hk3
          rw [hmonoAD jh0.id u hlk]
          rfl
        · rcases List.mem_append.mp hk4 with hk5 | hk6
          · obtain ⟨v, hv⟩ := Option.isSome_iff_exists.mp (hsomeB k hk5)
            rw [hmonoBD k v hv]
            rfl
          · obtain ⟨v, hv⟩ := Option.isSome_iff_exists.mp (hsomeC k hk6)
            rw [hmonoD k v hv]
            rfl
      · exact hsomeD k hk2

/-- flatMap after a map fuses. -/
theorem flatMap_map_comm {α β γ : Type} (f : α → β) (g : β → List γ) :
    ∀ l : List α, (l.map f).flatMap g = l.flatMap (fun a => g (f a)) := by
  intro l
  induction l with
  | nil => rfl
  | cons a rest ih =>
    simp only [List.map_cons, List.flatMap_cons, ih]

/-- Pointwise-equal functions give equal flatMaps. -/
theorem flatMap_congr_mem {α β : Type} :
    ∀ {l : List α} {f g : α → List β}, (∀ a ∈ l, f a = g a) →
      l.flatMap f = l.flatMap g := by
  intro l
  induction l with
  | nil => intro f g _; rfl
  | cons a rest ih =>
    intro f g h
    rw [List.flatMap_cons, List.flatMap_cons, h a (List.mem_cons_self a rest),
      ih (fun x hx => h x (List.mem_cons_of_mem a hx))]

/-- C4: canonicalization determinism and injectivity within one call.
There is one renaming f of raw string ids to uuids such that the
rewritten schema carries exactly the f-image of every raw occurrence
(so equal raw strings get the same uuid), and f is injective on the
occurring raw strings (distinct raw strings never share a uuid). -/
theorem canonicalization_injective (j : JsonOlogSchema) (c : Nat) :
    ∃ f : IdStr → Uuid,
      rawIdOccurrences (replace_ids_with_uuids j c).1 =
        (rawIdOccurrences j).map (fun r => IdStr.valid (f r)) ∧
      ∀ a ∈ rawIdOccurrences j, ∀ b ∈ rawIdOccurrences j,
        (f a = f b ↔ a = b) := by
  rcases hN : replaceNodeIds j.nodes [] c with ⟨ns, m1, c1⟩
  have hNs := replaceNodeIds_spec j.nodes [] c
  rw [hN] at hNs
  simp only at hNs
  obtain ⟨hNm, hNle, hNinv, hNout, hNsome⟩ := hNs
  rcases hH : replaceHyperedgeIds j.hyperedges m1 c1 with ⟨hhs, m2, c2⟩
  have hHs := replaceHyperedgeIds_spec j.hyperedges m1 c1
  rw [hH] at hHs
  simp only at hHs
  obtain ⟨hHm, hHle, hHinv, hHout, hHsome⟩ := hHs
  have hinv2 : MapInv m2 c2 := by
    refine hHinv (hNinv ⟨?_, ?_⟩)
    · intro p hp
      cases hp
    · simp
  refine ⟨fun r => (alookup m2 r).getD 0, ?_, ?_⟩
  · simp only [replace_ids_with_uuids, hN, hH, rawIdOccurrences,
      List.map_append]
    congr 1
    · rw [hNout, List.map_map, List.map_map]
      apply map_congr_mem
      intro jn hjn
      obtain ⟨v, hv⟩ := Option.isSome_iff_exists.mp (hNsome jn hjn)
      show IdStr.valid ((alookup m1 jn.id).getD 0) =
        IdStr.valid ((alookup m2 jn.id).getD 0)
      rw [hv, hHm jn.id v hv]
    · rw [hHout, flatMap_map_comm, map_flatMap_comm]
      apply flatMap_congr_mem
      intro a _
      simp [List.map_cons, List.map_append]
  · intro a ha b hb
    have hsome : ∀ r ∈ rawIdOccurrences j, (alookup m2 r).isSome = true := by
      intro r hr
      simp only [rawIdOccurrences] at hr
      rcases List.mem_append.mp hr with hr1 | hr2
      · obtain ⟨jn, hjn, hjneq⟩ := List.mem_map.mp hr1
        obtain ⟨v, hv⟩ := Option.isSome_iff_exists.mp (hNsome jn hjn)
        rw [← hjneq, hHm jn.id v hv]
        rfl
      · exact hHsome r hr2
    constructor
    · intro hfab
      obtain ⟨va, hva⟩ := Option.isSome_iff_exists.mp (hsome a ha)
      obtain ⟨vb, hvb⟩ := Option.isSome_iff_exists.mp (hsome b hb)
      simp only [hva, hvb, Option.getD_some] at hfab
      subst hfab
      exact alookup_inj hinv2.2 hva hvb
    · intro hab
      rw [hab]

/-- Witness for C4: on a schema whose raw node id n1 is reused as a
hyperedge source, the rewritten occurrence list is the image of the raw
one under a single renaming, so it has the same length. -/
theorem canonicalization_injective_witness :
    (rawIdOccurrences (replace_ids_with_uuids
        ⟨"t", [⟨.invalid "n1", "a"⟩, ⟨.invalid "n2", "b"⟩],
          [⟨.invalid "e1", "r", [.invalid "n1", .invalid "zz"],
            [.invalid "n2"]⟩]⟩ 0).1).length =
      (rawIdOccurrences
        ⟨"t", [⟨.invalid "n1", "a"⟩, ⟨.invalid "n2", "b"⟩],
          [⟨.invalid "e1", "r", [.invalid "n1", .invalid "zz"],
            [.invalid "n2"]⟩]⟩).length := by
  obtain ⟨f, hmap, -⟩ := canonicalization_injective
    ⟨"t", [⟨.invalid "n1", "a"⟩, ⟨.invalid "n2", "b"⟩],
      [⟨.invalid "e1", "r", [.invalid "n1", .invalid "zz"],
        [.invalid "n2"]⟩]⟩ 0
  rw [hmap, List.length_map]

/-- Folding node writes only changes the Nodes table. -/
theorem foldl_writeNode (oid : Uuid) :
    ∀ (ns : List Node) (db : Db), ns.foldl (writeNode oid) db =
      { db with
        nodes := ns.foldl
          (fun rows n => upsertNodeRow rows (nodeRowOf oid n)) db.nodes } := by
  intro ns
  induction ns with
  | nil => intro db; rfl
  | cons n rest ih =>
    intro db
    rw [List.foldl_cons, ih]
    rfl

/-- Folding citation writes changes only the Citations table (by
upsert) and the Citation_Links table (by appending one link per
citation, in order). -/
theorem foldl_writeCitation (hid : Uuid) :
    ∀ (cs : List Citation) (db : Db), cs.foldl (writeCitation hid) db =
      { db with
        citations := cs.foldl
          (fun rows c => upsertCitationRow rows (citationRowOf c))
          db.citations,
        citationLinks := db.citationLinks ++ cs.map (citLinkOf hid) } := by
  intro cs
  induction cs with
  | nil => intro db; simp
  | cons c rest ih =>
    intro db
    rw [List.foldl_cons, ih]
    simp [writeCitation, List.append_assoc]

/-- One hyperedge write, spelled out table by table. -/
theorem writeHyperedge_eq (oid : Uuid) (db : Db) (h : Hyperedge) :
    writeHyperedge oid db h =
      { db with
        hyperedges := upsertHyperedgeRow db.hyperedges (hedgeRowOf oid h),
        citations := h.citations.foldl
          (fun rows c => upsertCitationRow rows (citationRowOf c))
          db.citations,
        citationLinks := db.citationLinks ++ h.citations.map (citLinkOf h.id),
        hyperedgeLinks := db.hyperedgeLinks ++ h.source.map (sourceLinkOf h.id)
          ++ h.target.map (targetLinkOf h.id) } := by
  simp only [writeHyperedge]
  rw [foldl_writeCitation]

/-- Folding hyperedge writes, spelled out table by table. -/
theorem foldl_writeHyperedge (oid : Uuid) :
    ∀ (hs : List Hyperedge) (db : Db), hs.foldl (writeHyperedge oid) db =
      { db with
        hyperedges := hs.foldl
          (fun rows h => upsertHyperedgeRow rows (hedgeRowOf oid h))
          db.hyperedges,
        citations := (hs.flatMap Hyperedge.citations).foldl
          (fun rows c => upsertCitationRow rows (citationRowOf c))
          db.citations,
        citationLinks := db.citationLinks ++
          hs.flatMap (fun h => h.citations.map (citLinkOf h.id)),
        hyperedgeLinks := db.hyperedgeLinks ++
          hs.flatMap (fun h => h.source.map (sourceLinkOf h.id) ++
            h.target.map (targetLinkOf h.id)) } := by
  intro hs
  induction hs with
  | nil => intro db; simp
  | cons h rest ih =>
    intro db
    rw [List.foldl_cons, ih, writeHyperedge_eq]
    simp [List.flatMap_cons, List.foldl_append, List.append_assoc]

/-- The store produced by writing an olog into the empty store. -/
theorem write_emptyDb (O : Olog) :
    write_olog_to_db O emptyDb =
      ⟨[⟨.valid O.id, O.title⟩],
       O.nodes.foldl
         (fun rows n => upsertNodeRow rows (nodeRowOf O.id n)) [],
       O.hyperedges.foldl
         (fun rows h => upsertHyperedgeRow rows (hedgeRowOf O.id h)) [],
       (O.hyperedges.flatMap Hyperedge.citations).foldl
         (fun rows c => upsertCitationRow rows (citationRowOf c)) [],
       O.hyperedges.flatMap (fun h => h.source.map (sourceLinkOf h.id) ++
         h.target.map (targetLinkOf h.id)),
       O.hyperedges.flatMap (fun h => h.citations.map (citLinkOf h.id))⟩ := by
  simp only [write_olog_to_db]
  rw [foldl_writeNode, foldl_writeHyperedge]
  simp [emptyDb, upsertOlogRow]

/-- Upserting rows with fresh, pairwise-distinct keys appends them in
order. -/
theorem foldl_upsert_fresh {α : Type} (f : List α → α → List α)
    (kf : α → IdStr)
    (hf : ∀ rows r, f rows r = rows.filter (fun y => ¬ kf y = kf r) ++ [r]) :
    ∀ (xs acc : List α), (xs.map kf).Nodup →
      (∀ x ∈ xs, kf x ∉ acc.map kf) → xs.foldl f acc = acc ++ xs := by
  intro xs
  induction xs with
  | nil => intro acc _ _; simp
  | cons x rest ih =>
    intro acc hnd hfresh
    rw [List.map_cons, List.nodup_cons] at hnd
    rw [List.foldl_cons, hf]
    have hkeep : acc.filter (fun y => ¬ kf y = kf x) = acc := by
      apply List.filter_eq_self.mpr
      intro y hy
      simp only [decide_eq_true_eq]
      intro hc
      exact hfresh x (List.mem_cons_self x rest) (List.mem_map.mpr ⟨y, hy, hc⟩)
    rw [hkeep]
    have hfresh2 : ∀ z ∈ rest, kf z ∉ (acc ++ [x]).map kf := by
      intro z hz hc
      rw [List.map_append] at hc
      rcases List.mem_append.mp hc with hc1 | hc2
      · exact hfresh z (List.mem_cons_of_mem _ hz) hc1
      · simp only [List.map_cons, List.map_nil, List.mem_singleton] at hc2
        exact hnd.1 (hc2 ▸ List.mem_map.mpr ⟨z, hz, rfl⟩)
    rw [ih (acc ++ [x]) hnd.2 hfresh2]
    simp

/-- Filtering an upsert-built table by key yields the last row written
with that key, or the filtered accumulator when the key never occurs. -/
theorem foldl_upsert_filter {α : Type} (f : List α → α → List α)
    (kf : α → IdStr)
    (hf : ∀ rows r, f rows r = rows.filter (fun y => ¬ kf y = kf r) ++ [r]) :
    ∀ (xs acc : List α) (k : IdStr),
      (xs.foldl f acc).filter (fun y => kf y = k) =
        match xs.reverse.find? (fun y => kf y = k) with
        | some r => [r]
        | none => acc.filter (fun y => kf y = k) := by
  intro xs
  induction xs with
  | nil => intro acc k; rfl
  | cons x rest ih =>
    intro acc k
    rw [List.foldl_cons, ih (f acc x) k]
    rw [List.reverse_cons, List.find?_append]
    cases hfind : rest.reverse.find? (fun y => kf y = k) with
    | some r => simp [hfind]
    | none =>
      simp only [hfind, Option.none_or]
      rw [hf, List.filter_append]
      by_cases hx : kf x = k
      · have hfx : List.find? (fun y => kf y = k) [x] = some x := by
          simp [List.find?_cons, hx]
        rw [hfx]
        have h1 : (acc.filter (fun y => ¬ kf y = kf x)).filter
            (fun y => kf y = k) = [] := by
          rw [List.filter_filter]
          apply List.filter_eq_nil_iff.mpr
          intro y _
          simp only [Bool.and_eq_true, decide_eq_true_eq, not_and]
          intro h2 h3
          exact h3 (h2.trans hx.symm)
        rw [h1]
        simp [hx]
      · have hfx : List.find? (fun y => kf y = k) [x] = none := by
          simp [List.find?_cons, hx]
        rw [hfx]
        have h2 : [x].filter (fun y => kf y = k) = [] := by simp [hx]
        rw [h2, List.append_nil, List.filter_filter]
        apply List.filter_congr
        intro y _
        by_cases hyk : kf y = k
        · have hyx : ¬ k = kf x := fun hc => hx hc.symm
          simp [hyk, hyx]
        · simp [hyk]

/-- Filtering all citation links by one hyperedge id of the olog keeps
exactly that hyperedge citation links, in order. -/
theorem citationLinks_filter :
    ∀ {hs : List Hyperedge}, (hs.map Hyperedge.id).Nodup →
      ∀ {h : Hyperedge}, h ∈ hs →
        (hs.flatMap (fun x => x.citations.map (citLinkOf x.id))).filter
          (fun cl => cl.hyperedge_id = IdStr.valid h.id) =
          h.citations.map (citLinkOf h.id) := by
  intro hs
  induction hs with
  | nil => intro _ h hmem; cases hmem
  | cons h0 rest ih =>
    intro hnd h hmem
    rw [List.map_cons, List.nodup_cons] at hnd
    rw [List.flatMap_cons, List.filter_append]
    rcases List.mem_cons.mp hmem with hmem1 | hmem2
    · rw [hmem1]
      have hown : (h0.citations.map (citLinkOf h0.id)).filter
          (fun cl => cl.hyperedge_id = IdStr.valid h0.id) =
          h0.citations.map (citLinkOf h0.id) := by
        apply List.filter_eq_self.mpr
        intro cl hcl
        obtain ⟨c, _, hceq⟩ := List.mem_map.mp hcl
        subst hceq
        simp [citLinkOf]
      have hrest : (rest.flatMap
          (fun x => x.citations.map (citLinkOf x.id))).filter
          (fun cl => cl.hyperedge_id = IdStr.valid h0.id) = [] := by
        apply List.filter_eq_nil_iff.mpr
        intro cl hcl
        obtain ⟨x, hx, hclm⟩ := List.mem_flatMap.mp hcl
        obtain ⟨c, _, hceq⟩ := List.mem_map.mp hclm
        subst hceq
        simp only [citLinkOf, decide_eq_true_eq]
        intro hc
        apply hnd.1
        have hxid : x.id = h0.id := by injection hc
        rw [← hxid]
        exact List.mem_map.mpr ⟨x, hx, rfl⟩
      rw [hown, hrest, List.append_nil]
    · have hown0 : (h0.citations.map (citLinkOf h0.id)).filter
          (fun cl => cl.hyperedge_id = IdStr.valid h.id) = [] := by
        apply List.filter_eq_nil_iff.mpr
        intro cl hcl
        obtain ⟨c, _, hceq⟩ := List.mem_map.mp hcl
        subst hceq
        simp only [citLinkOf, decide_eq_true_eq]
        intro hc
        apply hnd.1
        have hid : h0.id = h.id := by injection hc
        rw [hid]
        exact List.mem_map.mpr ⟨h, hmem2, rfl⟩
      rw [hown0, List.nil_append]
      exact ih hnd.2 hmem2

/-- Filtering all hyperedge links by one hyperedge id and type=source
keeps exactly that hyperedge source links, in source order. -/
theorem hyperedgeLinks_filter_src :
    ∀ {hs : List Hyperedge}, (hs.map Hyperedge.id).Nodup →
      ∀ {h : Hyperedge}, h ∈ hs →
        (hs.flatMap (fun x => x.source.map (sourceLinkOf x.id) ++
            x.target.map (targetLinkOf x.id))).filter
          (fun l => l.hyperedge_id = IdStr.valid h.id ∧
            l.type = LinkType.source) = h.source.map (sourceLinkOf h.id) := by
  intro hs
  induction hs with
  | nil => intro _ h hmem; cases hmem
  | cons h0 rest ih =>
    intro hnd h hmem
    rw [List.map_cons, List.nodup_cons] at hnd
    rw [List.flatMap_cons, List.filter_append, List.filter_append]
    rcases List.mem_cons.mp hmem with hmem1 | hmem2
    · rw [hmem1]
      have hsrc : (h0.source.map (sourceLinkOf h0.id)).filter
          (fun l => l.hyperedge_id = IdStr.valid h0.id ∧
            l.type = LinkType.source) = h0.source.map (sourceLinkOf h0.id) := by
        apply List.filter_eq_self.mpr
        intro l hl
        obtain ⟨n, _, hleq⟩ := List.mem_map.mp hl
        subst hleq
        simp [sourceLinkOf]
      have htgt : (h0.target.map (targetLinkOf h0.id)).filter
          (fun l => l.hyperedge_id = IdStr.valid h0.id ∧
            l.type = LinkType.source) = [] := by
        apply List.filter_eq_nil_iff.mpr
        intro l hl
        obtain ⟨n, _, hleq⟩ := List.mem_map.mp hl
        subst hleq
        simp [targetLinkOf]
      have hrest : (rest.flatMap (fun x => x.source.map (sourceLinkOf x.id)
          ++ x.target.map (targetLinkOf x.id))).filter
          (fun l => l.hyperedge_id = IdStr.valid h0.id ∧
            l.type = LinkType.source) = [] := by
        apply List.filter_eq_nil_iff.mpr
        intro l hl
        obtain ⟨x, hx, hlm⟩ := List.mem_flatMap.mp hl
        have hxid : l.hyperedge_id = IdStr.valid x.id := by
          rcases List.mem_append.mp hlm with hl1 | hl2
          · obtain ⟨n, _, hleq⟩ := List.mem_map.mp hl1
            subst hleq
            rfl
          · obtain ⟨n, _, hleq⟩ := List.mem_map.mp hl2
            subst hleq
            rfl
        simp only [hxid, decide_eq_true_eq, Bool.not_eq_true]
        intro hc
        exfalso
        apply hnd.1
        have hxid2 : x.id = h0.id := by injection hc.1
        rw [← hxid2]
        exact List.mem_map.mpr ⟨x, hx, rfl⟩
      rw [hsrc, htgt, hrest, List.append_nil, List.append_nil]
    · have hown : ((h0.source.map (sourceLinkOf h0.id)).filter
          (fun l => l.hyperedge_id = IdStr.valid h.id ∧
            l.type = LinkType.source)) = [] ∧
          ((h0.target.map (targetLinkOf h0.id)).filter
          (fun l => l.hyperedge_id = IdStr.valid h.id ∧
            l.type = LinkType.source)) = [] := by
        constructor <;>
        · apply List.filter_eq_nil_iff.mpr
          intro l hl
          obtain ⟨n, _, hleq⟩ := List.mem_map.mp hl
          subst hleq
          simp only [sourceLinkOf, targetLinkOf, decide_eq_true_eq,
            Bool.not_eq_true]
          intro hc
          exfalso
          apply hnd.1
          have hid : h0.id = h.id := by injection hc.1
          rw [hid]
          exact List.mem_map.mpr ⟨h, hmem2, rfl⟩
      rw [hown.1, hown.2, List.nil_append, List.nil_append]
      exact ih hnd.2 hmem2

/-- Filtering all hyperedge links by one hyperedge id and type=target
keeps exactly that hyperedge target links, in target order. -/
theorem hyperedgeLinks_filter_tgt :
    ∀ {hs : List Hyperedge}, (hs.map Hyperedge.id).Nodup →
      ∀ {h : Hyperedge}, h ∈ hs →
        (hs.flatMap (fun x => x.source.map (sourceLinkOf x.id) ++
            x.target.map (targetLinkOf x.id))).filter
          (fun l => l.hyperedge_id = IdStr.valid h.id ∧
            l.type = LinkType.target) = h.target.map (targetLinkOf h.id) := by
  intro hs
  induction hs with
  | nil => intro _ h hmem; cases hmem
  | cons h0 rest ih =>
    intro hnd h hmem
    rw [List.map_cons, List.nodup_cons] at hnd
    rw [List.flatMap_cons, List.filter_append, List.filter_append]
    rcases List.mem_cons.mp hmem with hmem1 | hmem2
    · rw [hmem1]
      have hsrc : (h0.source.map (sourceLinkOf h0.id)).filter
          (fun l => l.hyperedge_id = IdStr.valid h0.id ∧
            l.type = LinkType.target) = [] := by
        apply List.filter_eq_nil_iff.mpr
        intro l hl
        obtain ⟨n, _, hleq⟩ := List.mem_map.mp hl
        subst hleq
        simp [sourceLinkOf]
      have htgt : (h0.target.map (targetLinkOf h0.id)).filter
          (fun l => l.hyperedge_id = IdStr.valid h0.id ∧
            l.type = LinkType.target) = h0.target.map (targetLinkOf h0.id) := by
        apply List.filter_eq_self.mpr
        intro l hl
        obtain ⟨n, _, hleq⟩ := List.mem_map.mp hl
        subst hleq
        simp [targetLinkOf]
      have hrest : (rest.flatMap (fun x => x.source.map (sourceLinkOf x.id)
          ++ x.target.map (targetLinkOf x.id))).filter
          (fun l => l.hyperedge_id = IdStr.valid h0.id ∧
            l.type = LinkType.target) = [] := by
        apply List.filter_eq_nil_iff.mpr
        intro l hl
        obtain ⟨x, hx, hlm⟩ := List.mem_flatMap.mp hl
        have hxid : l.hyperedge_id = IdStr.valid x.id := by
          rcases List.mem_append.mp hlm with hl1 | hl2
          · obtain ⟨n, _, hleq⟩ := List.mem_map.mp hl1
            subst hleq
            rfl
          · obtain ⟨n, _, hleq⟩ := List.mem_map.mp hl2
            subst hleq
            rfl
        simp only [hxid, decide_eq_true_eq, Bool.not_eq_true]
        intro hc
        exfalso
        apply hnd.1
        have hxid2 : x.id = h0.id := by injection hc.1
        rw [← hxid2]
        exact List.mem_map.mpr ⟨x, hx, rfl⟩
      rw [hsrc, htgt, hrest, List.append_nil, List.nil_append]
    · have hown : ((h0.source.map (sourceLinkOf h0.id)).filter
          (fun l => l.hyperedge_id = IdStr.valid h.id ∧
            l.type = LinkType.target)) = [] ∧
          ((h0.target.map (targetLinkOf h0.id)).filter
          (fun l => l.hyperedge_id = IdStr.valid h.id ∧
            l.type = LinkType.target)) = [] := by
        constructor <;>
        · apply List.filter_eq_nil_iff.mpr
          intro l hl
          obtain ⟨n, _, hleq⟩ := List.mem_map.mp hl
          subst hleq
          simp only [sourceLinkOf, targetLinkOf, decide_eq_true_eq,
            Bool.not_eq_true]
          intro hc
          exfalso
          apply hnd.1
          have hid : h0.id = h.id := by injection hc.1
          rw [hid]
          exact List.mem_map.mpr ⟨h, hmem2, rfl⟩
      rw [hown.1, hown.2, List.nil_append, List.nil_append]
      exact ih hnd.2 hmem2

/-- With pairwise-distinct node ids, find? by id returns the node. -/
theorem find?_node_of_nodup :
    ∀ {ns : List Node}, (ns.map Node.id).Nodup → ∀ {n : Node}, n ∈ ns →
      ns.find? (fun x => x.id = n.id) = some n := by
  intro ns
  induction ns with
  | nil => intro _ n hn; cases hn
  | cons n0 rest ih =>
    intro hnd n hn
    rw [List.map_cons, List.nodup_cons] at hnd
    rcases List.mem_cons.mp hn with hn1 | hn2
    · rw [hn1]
      simp [List.find?_cons]
    · have hne : ¬ n0.id = n.id := by
        intro hc
        exact hnd.1 (hc ▸ List.mem_map.mpr ⟨n, hn2, rfl⟩)
      have hd : (decide (n0.id = n.id)) = false := by simp [hne]
      rw [List.find?_cons]
      simp only [hd]
      exact ih hnd.2 hn2

/-- A fallible map over canonical images succeeds elementwise. -/
theorem listMapExcept_map_ok {α β : Type} (f : β → Except DbError α)
    (g : α → β) :
    ∀ l : List α, (∀ x ∈ l, f (g x) = .ok x) →
      listMapExcept f (l.map g) = .ok l := by
  intro l
  induction l with
  | nil => intro _; rfl
  | cons x rest ih =>
    intro hall
    rw [List.map_cons, listMapExcept, hall x (List.mem_cons_self x rest),
      ih (fun y hy => hall y (List.mem_cons_of_mem x hy))]

/-- Parsing back the written node rows restores the node list. -/
theorem filterMap_parse_rows (oid : Uuid) :
    ∀ ns : List Node, (ns.map (nodeRowOf oid)).filterMap parseNodeRow = ns := by
  intro ns
  induction ns with
  | nil => rfl
  | cons n rest ih =>
    simp [List.filterMap_cons, parseNodeRow, nodeRowOf, parseUuid, ih]

/-- flatMap of singletons is a map. -/
theorem flatMap_singleton_map {α β : Type} (g : α → β) :
    ∀ l : List α, l.flatMap (fun x => [g x]) = l.map g := by
  intro l
  induction l with
  | nil => rfl
  | cons a rest ih => simp [List.flatMap_cons, ih]

/-- Filtering the written Citations table by one citation id of the
olog yields exactly the canonical row of that citation, provided equal
citation ids carry equal citations. -/
theorem citations_table_filter (O : Olog)
    (hcit : ∀ hh ∈ O.hyperedges, ∀ hh' ∈ O.hyperedges, ∀ c ∈ hh.citations,
      ∀ c' ∈ hh'.citations, c.id = c'.id → c = c')
    {h : Hyperedge} (hh : h ∈ O.hyperedges) {c : Citation}
    (hc : c ∈ h.citations) :
    (((O.hyperedges.flatMap Hyperedge.citations).map citationRowOf).foldl
        upsertCitationRow []).filter
      (fun y => y.citation_id = IdStr.valid c.id) = [citationRowOf c] := by
  rw [foldl_upsert_filter upsertCitationRow CitationRow.citation_id
    (fun rows r => rfl)]
  cases hfind : (((O.hyperedges.flatMap Hyperedge.citations).map
      citationRowOf).reverse.find?
      (fun y => y.citation_id = IdStr.valid c.id)) with
  | none =>
    exfalso
    have hcmem : citationRowOf c ∈
        ((O.hyperedges.flatMap Hyperedge.citations).map citationRowOf).reverse := by
      rw [List.mem_reverse]
      exact List.mem_map.mpr ⟨c, List.mem_flatMap.mpr ⟨h, hh, hc⟩, rfl⟩
    have := List.find?_eq_none.mp hfind _ hcmem
    simp [citationRowOf] at this
  | some r =>
    have hrmem : r ∈ (O.hyperedges.flatMap Hyperedge.citations).map
        citationRowOf :=
      List.mem_reverse.mp (List.mem_of_find?_eq_some hfind)
    obtain ⟨c', hc'mem, hc'eq⟩ := List.mem_map.mp hrmem
    have hpred := List.find?_some hfind
    subst hc'eq
    simp only [citationRowOf, decide_eq_true_eq] at hpred
    have hcid : c'.id = c.id := by injection hpred
    obtain ⟨h', hh', hcc'⟩ := List.mem_flatMap.mp hc'mem
    have hceq : c' = c := hcit h' hh' h hh c' hcc' c hc hcid
    show [citationRowOf c'] = [citationRowOf c]
    rw [hceq]

/-- Reading back the written row of a hyperedge of the olog restores the
hyperedge exactly, given the data-model invariants and the written
tables. -/
theorem readOneHyperedge_rt (db : Db) (O : Olog) (h : Hyperedge)
    (hmem : h ∈ O.hyperedges)
    (hnd1 : (O.nodes.map Node.id).Nodup)
    (hnd2 : (O.hyperedges.map Hyperedge.id).Nodup)
    (hsrc : ∀ n ∈ h.source, n ∈ O.nodes)
    (htgt : ∀ n ∈ h.target, n ∈ O.nodes)
    (hcit : ∀ hh ∈ O.hyperedges, ∀ hh' ∈ O.hyperedges, ∀ c ∈ hh.citations,
      ∀ c' ∈ hh'.citations, c.id = c'.id → c = c')
    (hlinks : db.hyperedgeLinks = O.hyperedges.flatMap
      (fun x => x.source.map (sourceLinkOf x.id) ++
        x.target.map (targetLinkOf x.id)))
    (hclinks : db.citationLinks = O.hyperedges.flatMap
      (fun x => x.citations.map (citLinkOf x.id)))
    (hcits : db.citations = ((O.hyperedges.flatMap Hyperedge.citations).map
      citationRowOf).foldl upsertCitationRow []) :
    readOneHyperedge db O.nodes (hedgeRowOf O.id h) = .ok h := by
  have hjoin : citationJoin db h.id = h.citations.map citationRowOf := by
    unfold citationJoin
    rw [hclinks, citationLinks_filter hnd2 hmem,
      flatMap_map_comm (citLinkOf h.id) _ h.citations]
    have hpt : ∀ c ∈ h.citations,
        db.citations.filter
          (fun x => x.citation_id = (citLinkOf h.id c).citation_id) =
        [citationRowOf c] := by
      intro c hc
      rw [hcits]
      show (((O.hyperedges.flatMap Hyperedge.citations).map
          citationRowOf).foldl upsertCitationRow []).filter
        (fun x => x.citation_id = IdStr.valid c.id) = [citationRowOf c]
      exact citations_table_filter O hcit hmem hc
    rw [flatMap_congr_mem hpt, flatMap_singleton_map]
  have hcread : listMapExcept parseCitationRow (citationJoin db h.id) =
      .ok h.citations := by
    rw [hjoin]
    apply listMapExcept_map_ok
    intro c _
    rfl
  have hsrcread : listMapExcept (resolveLinkNode O.nodes)
      (srcLinks db h.id) = .ok h.source := by
    unfold srcLinks
    rw [hlinks, hyperedgeLinks_filter_src hnd2 hmem]
    apply listMapExcept_map_ok
    intro n hn
    unfold resolveLinkNode
    have hp : parseUuid (sourceLinkOf h.id n).node_id = some n.id := rfl
    simp only [hp, find?_node_of_nodup hnd1 (hsrc n hn)]
  have htgtread : listMapExcept (resolveLinkNode O.nodes)
      (tgtLinks db h.id) = .ok h.target := by
    unfold tgtLinks
    rw [hlinks, hyperedgeLinks_filter_tgt hnd2 hmem]
    apply listMapExcept_map_ok
    intro n hn
    unfold resolveLinkNode
    have hp : parseUuid (targetLinkOf h.id n).node_id = some n.id := rfl
    simp only [hp, find?_node_of_nodup hnd1 (htgt n hn)]
  unfold readOneHyperedge
  have hp : parseUuid (hedgeRowOf O.id h).hyperedge_id = some h.id := rfl
  simp only [hp, hcread, hsrcread, htgtread]
  rfl

/-- A store whose six tables hold exactly the written image of an olog
reads back to that olog. -/
theorem read_rt_of_tables (db : Db) (O : Olog)
    (hnd1 : (O.nodes.map Node.id).Nodup)
    (hnd2 : (O.hyperedges.map Hyperedge.id).Nodup)
    (hclosed : ∀ h ∈ O.hyperedges, ∀ n : Node,
      (n ∈ h.source ∨ n ∈ h.target) → n ∈ O.nodes)
    (hcit : ∀ hh ∈ O.hyperedges, ∀ hh' ∈ O.hyperedges, ∀ c ∈ hh.citations,
      ∀ c' ∈ hh'.citations, c.id = c'.id → c = c')
    (hologs : db.ologs = [⟨.valid O.id, O.title⟩])
    (hnodes : db.nodes = O.nodes.map (nodeRowOf O.id))
    (hhedges : db.hyperedges = O.hyperedges.map (hedgeRowOf O.id))
    (hcits : db.citations = ((O.hyperedges.flatMap Hyperedge.citations).map
      citationRowOf).foldl upsertCitationRow [])
    (hlinks : db.hyperedgeLinks = O.hyperedges.flatMap
      (fun x => x.source.map (sourceLinkOf x.id) ++
        x.target.map (targetLinkOf x.id)))
    (hclinks : db.citationLinks = O.hyperedges.flatMap
      (fun x => x.citations.map (citLinkOf x.id))) :
    read_olog_from_db db O.id = .ok O := by
  have hnl : readNodeList db O.id = O.nodes := by
    unfold readNodeList
    rw [hnodes]
    have hself : (O.nodes.map (nodeRowOf O.id)).filter
        (fun r => r.olog_id = IdStr.valid O.id) =
        O.nodes.map (nodeRowOf O.id) := by
      apply List.filter_eq_self.mpr
      intro r hr
      obtain ⟨n, _, hneq⟩ := List.mem_map.mp hr
      subst hneq
      simp [nodeRowOf]
    rw [hself, filterMap_parse_rows]
  have hfil : db.hyperedges.filter (fun r => r.olog_id = IdStr.valid O.id) =
      O.hyperedges.map (hedgeRowOf O.id) := by
    rw [hhedges]
    apply List.filter_eq_self.mpr
    intro r hr
    obtain ⟨h, _, hheq⟩ := List.mem_map.mp hr
    subst hheq
    simp [hedgeRowOf]
  have hread : listMapExcept (readOneHyperedge db (readNodeList db O.id))
      (db.hyperedges.filter (fun r => r.olog_id = IdStr.valid O.id)) =
      .ok O.hyperedges := by
    rw [hfil, hnl]
    apply listMapExcept_map_ok
    intro h hh2
    exact readOneHyperedge_rt db O h hh2 hnd1 hnd2
      (fun n hn => hclosed h hh2 n (Or.inl hn))
      (fun n hn => hclosed h hh2 n (Or.inr hn))
      hcit hlinks hclinks hcits
  unfold read_olog_from_db
  rw [hologs]
  have hh : (([(⟨.valid O.id, O.title⟩ : OlogRow)]).filter
      (fun r => r.olog_id = IdStr.valid O.id)).head? =
      some ⟨.valid O.id, O.title⟩ := by simp
  simp only [hh, hread]
  rw [hnl]

/-- C1: store round-trip. Writing an olog satisfying the data-model
invariants (pairwise distinct node ids, pairwise distinct hyperedge
ids, referential closure, and citation-id coherence) into an empty
store and reading it back by its id returns exactly the same olog,
which in particular gives node/hyperedge/citation set equality with
order-sensitive source and target sequences. -/
theorem store_round_trip (O : Olog)
    (hnd1 : (O.nodes.map Node.id).Nodup)
    (hnd2 : (O.hyperedges.map Hyperedge.id).Nodup)
    (hclosed : ∀ h ∈ O.hyperedges, ∀ n : Node,
      (n ∈ h.source ∨ n ∈ h.target) → n ∈ O.nodes)
    (hcit : ∀ hh ∈ O.hyperedges, ∀ hh' ∈ O.hyperedges, ∀ c ∈ hh.citations,
      ∀ c' ∈ hh'.citations, c.id = c'.id → c = c') :
    read_olog_from_db (write_olog_to_db O emptyDb) O.id = .ok O := by
  have hinj : Function.Injective IdStr.valid := fun a b hab => by
    injection hab
  apply read_rt_of_tables (write_olog_to_db O emptyDb) O hnd1 hnd2 hclosed
    hcit
  · rw [write_emptyDb]
  · rw [write_emptyDb]
    show O.nodes.foldl
      (fun rows n => upsertNodeRow rows (nodeRowOf O.id n)) [] =
      O.nodes.map (nodeRowOf O.id)
    rw [← List.foldl_map (nodeRowOf O.id) upsertNodeRow O.nodes []]
    have hcomp : (O.nodes.map (nodeRowOf O.id)).map NodeRow.node_id =
        (O.nodes.map Node.id).map IdStr.valid := by
      rw [List.map_map, List.map_map]
      rfl
    have hnd : ((O.nodes.map (nodeRowOf O.id)).map NodeRow.node_id).Nodup := by
      rw [hcomp]
      exact hnd1.map hinj
    rw [foldl_upsert_fresh upsertNodeRow NodeRow.node_id
      (fun rows r => rfl) (O.nodes.map (nodeRowOf O.id)) [] hnd
      (fun x _ hc => absurd hc (by simp))]
    simp
  · rw [write_emptyDb]
    show O.hyperedges.foldl
      (fun rows h => upsertHyperedgeRow rows (hedgeRowOf O.id h)) [] =
      O.hyperedges.map (hedgeRowOf O.id)
    rw [← List.foldl_map (hedgeRowOf O.id) upsertHyperedgeRow
      O.hyperedges []]
    have hcomp : (O.hyperedges.map (hedgeRowOf O.id)).map
        HyperedgeRow.hyperedge_id =
        (O.hyperedges.map Hyperedge.id).map IdStr.valid := by
      rw [List.map_map, List.map_map]
      rfl
    have hnd : ((O.hyperedges.map (hedgeRowOf O.id)).map
        HyperedgeRow.hyperedge_id).Nodup := by
      rw [hcomp]
      exact hnd2.map hinj
    rw [foldl_upsert_fresh upsertHyperedgeRow HyperedgeRow.hyperedge_id
      (fun rows r => rfl) (O.hyperedges.map (hedgeRowOf O.id)) [] hnd
      (fun x _ hc => absurd hc (by simp))]
    simp
  · rw [write_emptyDb]
    exact (List.foldl_map citationRowOf upsertCitationRow
      (O.hyperedges.flatMap Hyperedge.citations) []).symm
  · rw [write_emptyDb]
  · rw [write_emptyDb]

/-- Witness for C1: the two-source one-target olog of the spec scenario
writes into the empty store and reads back unchanged. -/
theorem store_round_trip_witness :
    ((Olog.mk 9 "A" [⟨1, "Cat"⟩, ⟨2, "Animal"⟩]
        [⟨3, "is-a", [⟨1, "Cat"⟩, ⟨2, "Animal"⟩], [⟨2, "Animal"⟩],
          [⟨7, "t", "l", "x"⟩]⟩]).nodes.map Node.id).Nodup ∧
    read_olog_from_db
      (write_olog_to_db
        (Olog.mk 9 "A" [⟨1, "Cat"⟩, ⟨2, "Animal"⟩]
          [⟨3, "is-a", [⟨1, "Cat"⟩, ⟨2, "Animal"⟩], [⟨2, "Animal"⟩],
            [⟨7, "t", "l", "x"⟩]⟩]) emptyDb)
      (Olog.mk 9 "A" [⟨1, "Cat"⟩, ⟨2, "Animal"⟩]
        [⟨3, "is-a", [⟨1, "Cat"⟩, ⟨2, "Animal"⟩], [⟨2, "Animal"⟩],
          [⟨7, "t", "l", "x"⟩]⟩]).id =
      .ok (Olog.mk 9 "A" [⟨1, "Cat"⟩, ⟨2, "Animal"⟩]
        [⟨3, "is-a", [⟨1, "Cat"⟩, ⟨2, "Animal"⟩], [⟨2, "Animal"⟩],
          [⟨7, "t", "l", "x"⟩]⟩]) :=
  ⟨by decide,
    store_round_trip
      (Olog.mk 9 "A" [⟨1, "Cat"⟩, ⟨2, "Animal"⟩]
        [⟨3, "is-a", [⟨1, "Cat"⟩, ⟨2, "Animal"⟩], [⟨2, "Animal"⟩],
          [⟨7, "t", "l", "x"⟩]⟩])
      (by decide) (by decide)
      (by
        intro h hh n hn
        simp only [List.mem_singleton] at hh
        subst hh
        rcases hn with hn | hn
        · exact hn
        · simp only [List.mem_singleton] at hn
          subst hn
          simp)
      (by decide)⟩

/-- Inserting a fresh key into a uuid-keyed map appends. -/
theorem insertReplace_append {β : Type} :
    ∀ {m : List (Uuid × β)} {k : Uuid} {v : β}, k ∉ m.map Prod.fst →
      insertReplace m k v = m ++ [(k, v)] := by
  intro m
  induction m with
  | nil => intro k v _; rfl
  | cons p rest ih =>
    intro k v hk
    obtain ⟨k', v'⟩ := p
    rw [List.map_cons] at hk
    have hne : ¬ k' = k := by
      intro hc
      exact hk (hc ▸ List.mem_cons_self _ _)
    rw [insertReplace, if_neg hne, ih (fun hc => hk (List.mem_cons_of_mem _ hc))]
    rfl

/-- Lookup of a uuid at or above the bound of all stored keys fails. -/
theorem alookup_none_of_ge {β : Type} {nm : List (Uuid × β)} {c u : Uuid}
    (hb : ∀ q ∈ nm, q.1 < c) (hu : c ≤ u) : alookup nm u = none := by
  apply alookup_eq_none_iff.mpr
  intro hc
  obtain ⟨q, hq, hqe⟩ := List.mem_map.mp hc
  exact absurd (hqe ▸ hb q hq) (not_lt_of_le hu)

/-- Specification of the node loop of convert_json_olog_to_olog when
the string node ids are pairwise distinct: the id map binds exactly the
node ids (freshly and injectively), the node map binds each minted uuid
to its node, and the node list is the input list renamed. -/
theorem convertNodes_spec :
    ∀ (ns : List JsonNodeSchema) (idm0 : List (IdStr × Uuid))
      (nm0 : List (Uuid × Node)) (c0 : Nat),
      (ns.map JsonNodeSchema.id).Nodup →
      (∀ jn ∈ ns, alookup idm0 jn.id = none) →
      (∀ q ∈ nm0, q.1 < c0) →
      (∀ p ∈ idm0, p.2 < c0) →
      ((idm0.map Prod.snd).Nodup) →
      (∀ k v, alookup idm0 k = some v →
        alookup (convertNodes ns idm0 nm0 c0).1 k = some v) ∧
      (∀ k, alookup idm0 k = none → k ∉ ns.map JsonNodeSchema.id →
        alookup (convertNodes ns idm0 nm0 c0).1 k = none) ∧
      (∀ p ∈ (convertNodes ns idm0 nm0 c0).1,
        p.2 < (convertNodes ns idm0 nm0 c0).2.2) ∧
      (((convertNodes ns idm0 nm0 c0).1.map Prod.snd).Nodup) ∧
      c0 ≤ (convertNodes ns idm0 nm0 c0).2.2 ∧
      (∀ q ∈ (convertNodes ns idm0 nm0 c0).2.1,
        q.1 < (convertNodes ns idm0 nm0 c0).2.2) ∧
      (∀ u q, alookup nm0 u = some q →
        alookup (convertNodes ns idm0 nm0 c0).2.1 u = some q) ∧
      (∀ jn ∈ ns, ∃ u,
        alookup (convertNodes ns idm0 nm0 c0).1 jn.id = some u ∧
        alookup (convertNodes ns idm0 nm0 c0).2.1 u =
          some (Node.mk u jn.label)) ∧
      (convertNodes ns idm0 nm0 c0).2.1.map Prod.snd =
        nm0.map Prod.snd ++ ns.map (fun jn => Node.mk
          ((alookup (convertNodes ns idm0 nm0 c0).1 jn.id).getD 0)
          jn.label) := by
  intro ns
  induction ns with
  | nil =>
    intro idm0 nm0 c0 _ _ hnmb hidb hnd
    refine ⟨fun k v h => h, fun k h _ => h, hidb, hnd, le_refl c0, hnmb,
      fun u q h => h, fun jn hjn => absurd hjn (List.not_mem_nil jn), ?_⟩
    simp [convertNodes]
  | cons jn rest ih =>
    intro idm0 nm0 c0 hnd hnone hnmb hidb hvnd
    rw [List.map_cons, List.nodup_cons] at hnd
    have halk : alookup idm0 jn.id = none :=
      hnone jn (List.mem_cons_self jn rest)
    have hstep : convertNodes (jn :: rest) idm0 nm0 c0 =
        convertNodes rest (idm0 ++ [(jn.id, c0)])
          (nm0 ++ [(c0, ⟨c0, jn.label⟩)]) (c0 + 1) := by
      have hins : insertReplace nm0 c0 (⟨c0, jn.label⟩ : Node) =
          nm0 ++ [(c0, ⟨c0, jn.label⟩)] :=
        insertReplace_append (by
          intro hc
          obtain ⟨q, hq, hqe⟩ := List.mem_map.mp hc
          exact absurd (hqe ▸ hnmb q hq) (lt_irrefl c0))
      simp only [convertNodes, entryOrInsert, halk, hins]
    rw [hstep]
    have hrest_none : ∀ jn' ∈ rest,
        alookup (idm0 ++ [(jn.id, c0)]) jn'.id = none := by
      intro jn' hjn'
      rw [alookup_append, hnone jn' (List.mem_cons_of_mem jn hjn')]
      have hne : ¬ jn.id = jn'.id := by
        intro hc
        exact hnd.1 (hc ▸ List.mem_map.mpr ⟨jn', hjn', rfl⟩)
      simp [alookup, hne]
    have hnmb' : ∀ q ∈ nm0 ++ [(c0, (⟨c0, jn.label⟩ : Node))],
        q.1 < c0 + 1 := by
      intro q hq
      rcases List.mem_append.mp hq with hq1 | hq2
      · exact Nat.lt_succ_of_lt (hnmb q hq1)
      · rw [List.mem_singleton] at hq2
        subst hq2
        exact Nat.lt_succ_self c0
    have hidb' : ∀ p ∈ idm0 ++ [(jn.id, c0)], p.2 < c0 + 1 := by
      intro p hp
      rcases List.mem_append.mp hp with hp1 | hp2
      · exact Nat.lt_succ_of_lt (hidb p hp1)
      · rw [List.mem_singleton] at hp2
        subst hp2
        exact Nat.lt_succ_self c0
    have hvnd' : (((idm0 ++ [(jn.id, c0)]).map Prod.snd)).Nodup := by
      rw [List.map_append]
      rw [List.nodup_append]
      refine ⟨hvnd, by simp, ?_⟩
      intro v hv hv2
      simp only [List.map_cons, List.map_nil, List.mem_singleton] at hv2
      rw [hv2] at hv
      obtain ⟨p, hp, hpe⟩ := List.mem_map.mp hv
      exact absurd (hpe ▸ hidb p hp) (lt_irrefl c0)
    obtain ⟨m1, m2, m3, m4, m5, m6, m7, m8, m9⟩ := ih (idm0 ++ [(jn.id, c0)])
      (nm0 ++ [(c0, ⟨c0, jn.label⟩)]) (c0 + 1) hnd.2 hrest_none hnmb' hidb'
      hvnd'
    have hjnid : alookup (convertNodes rest (idm0 ++ [(jn.id, c0)])
        (nm0 ++ [(c0, ⟨c0, jn.label⟩)]) (c0 + 1)).1 jn.id = some c0 := by
      apply m1
      rw [alookup_append, halk]
      simp [alookup]
    have hnmc0 : alookup (convertNodes rest (idm0 ++ [(jn.id, c0)])
        (nm0 ++ [(c0, ⟨c0, jn.label⟩)]) (c0 + 1)).2.1 c0 =
        some (⟨c0, jn.label⟩ : Node) := by
      apply m7
      rw [alookup_append, alookup_none_of_ge hnmb (le_refl c0)]
      simp [alookup]
    refine ⟨?_, ?_, m3, m4, le_trans (Nat.le_succ c0) m5, m6, ?_, ?_, ?_⟩
    · intro k v h
      apply m1
      exact alookup_append_left _ h
    · intro k h hk
      apply m2
      · rw [alookup_append, h]
        have hne : ¬ jn.id = k := by
          intro hc
          exact hk (hc ▸ List.mem_cons_self _ _)
        simp [alookup, hne]
      · intro hc
        exact hk (List.mem_cons_of_mem _ hc)
    · intro u q h
      apply m7
      exact alookup_append_left _ h
    · intro jn' hjn'
      rcases List.mem_cons.mp hjn' with h1 | h2
      · subst h1
        exact ⟨c0, hjnid, hnmc0⟩
      · exact m8 jn' h2
    · rw [m9, List.map_cons, List.map_append]
      rw [hjnid]
      simp [List.append_assoc]

/-- Pointwise-equal functions give equal filterMaps. -/
theorem filterMap_congr_mem {α β : Type} :
    ∀ {l : List α} {f g : α → Option β}, (∀ a ∈ l, f a = g a) →
      l.filterMap f = l.filterMap g := by
  intro l
  induction l with
  | nil => intro f g _; rfl
  | cons a rest ih =>
    intro f g h
    rw [List.filterMap_cons, List.filterMap_cons,
      h a (List.mem_cons_self a rest),
      ih (fun x hx => h x (List.mem_cons_of_mem a hx))]

/-- Source/target resolution through the id map is unaffected by the
bindings added during the hyperedge loop: their uuids are at or above
the node counter, so the node-map lookup fails for them. -/
theorem resolve_stable {nm : List (Uuid × Node)} {c1 : Nat}
    (hnm : ∀ q ∈ nm, q.1 < c1) {idmN ext : List (IdStr × Uuid)}
    (hvals : ∀ p ∈ ext, c1 ≤ p.2) (sid : IdStr) :
    (alookup (idmN ++ ext) sid).bind (fun u => alookup nm u) =
      (alookup idmN sid).bind (fun u => alookup nm u) := by
  rw [alookup_append]
  cases h1 : alookup idmN sid with
  | some u => rfl
  | none =>
    cases h2 : alookup ext sid with
    | none => rfl
    | some v =>
      have hv : c1 ≤ v := hvals _ (alookup_mem h2)
      simp [alookup_none_of_ge hnm hv]

/-- Shape of the hyperedge loop of convert_json_olog_to_olog: labels
come from the input in order, and each side is the input reference list
resolved through the node-phase id map and the node map. -/
theorem convertHyperedges_shape (nm : List (Uuid × Node)) (cit : Citation)
    (idmN : List (IdStr × Uuid)) (c1 : Nat)
    (hnm : ∀ q ∈ nm, q.1 < c1) :
    ∀ (hs : List JsonHyperedgeSchema) (ext : List (IdStr × Uuid)) (c : Nat),
      (∀ p ∈ ext, c1 ≤ p.2) → c1 ≤ c →
      (∀ p ∈ idmN ++ ext, p.2 < c) →
      (convertHyperedges nm cit hs (idmN ++ ext) c).1.map
        (fun h => (h.label, h.source, h.target)) =
      hs.map (fun jh => (jh.label,
        jh.sources.filterMap (fun sid =>
          (alookup idmN sid).bind (fun u => alookup nm u)),
        jh.targets.filterMap (fun sid =>
          (alookup idmN sid).bind (fun u => alookup nm u)))) := by
  intro hs
  induction hs with
  | nil => intro ext c _ _ _; rfl
  | cons jh rest ih =>
    intro ext c hext hc hbound
    cases halk : alookup (idmN ++ ext) jh.id with
    | some u =>
      simp only [convertHyperedges, entryOrInsert, halk]
      rcases hr : convertHyperedges nm cit rest (idmN ++ ext) c with
        ⟨hsRec, idmRec, cRec⟩
      simp only [hr, List.map_cons]
      have htail := ih ext c hext hc hbound
      rw [hr] at htail
      simp only at htail
      rw [htail]
      have hsrc : jh.sources.filterMap (fun sid =>
          (alookup (idmN ++ ext) sid).bind (fun u => alookup nm u)) =
          jh.sources.filterMap (fun sid =>
            (alookup idmN sid).bind (fun u => alookup nm u)) :=
        filterMap_congr_mem (fun sid _ => resolve_stable hnm hext sid)
      have htgt : jh.targets.filterMap (fun sid =>
          (alookup (idmN ++ ext) sid).bind (fun u => alookup nm u)) =
          jh.targets.filterMap (fun sid =>
            (alookup idmN sid).bind (fun u => alookup nm u)) :=
        filterMap_congr_mem (fun sid _ => resolve_stable hnm hext sid)
      rw [hsrc, htgt]
    | none =>
      have hext' : ∀ p ∈ ext ++ [(jh.id, c)], c1 ≤ p.2 := by
        intro p hp
        rcases List.mem_append.mp hp with hp1 | hp2
        · exact hext p hp1
        · rw [List.mem_singleton] at hp2
          rw [hp2]
          exact hc
      have hbound' : ∀ p ∈ idmN ++ (ext ++ [(jh.id, c)]), p.2 < c + 1 := by
        intro p hp
        rw [← List.append_assoc] at hp
        rcases List.mem_append.mp hp with hp1 | hp2
        · exact Nat.lt_succ_of_lt (hbound p hp1)
        · rw [List.mem_singleton] at hp2
          rw [hp2]
          exact Nat.lt_succ_self c
      simp only [convertHyperedges, entryOrInsert, halk]
      rw [List.append_assoc]
      rcases hr : convertHyperedges nm cit rest (idmN ++ (ext ++ [(jh.id, c)]))
        (c + 1) with ⟨hsRec, idmRec, cRec⟩
      simp only [hr, List.map_cons]
      have htail := ih (ext ++ [(jh.id, c)]) (c + 1) hext'
        (le_trans hc (Nat.le_succ c)) hbound'
      rw [hr] at htail
      simp only at htail
      rw [htail]
      have hsrc : jh.sources.filterMap (fun sid =>
          (alookup (idmN ++ (ext ++ [(jh.id, c)])) sid).bind
            (fun u => alookup nm u)) =
          jh.sources.filterMap (fun sid =>
            (alookup idmN sid).bind (fun u => alookup nm u)) :=
        filterMap_congr_mem (fun sid _ => resolve_stable hnm hext' sid)
      have htgt : jh.targets.filterMap (fun sid =>
          (alookup (idmN ++ (ext ++ [(jh.id, c)])) sid).bind
            (fun u => alookup nm u)) =
          jh.targets.filterMap (fun sid =>
            (alookup idmN sid).bind (fun u => alookup nm u)) :=
        filterMap_congr_mem (fun sid _ => resolve_stable hnm hext' sid)
      rw [hsrc, htgt]

/-- C8: wire round-trip. For a canonicalized schema (node ids pairwise
distinct, as the canonicalizer guarantees for a generator output whose
node ids are unique), flattening the converted olog preserves the
title, the node labels in order, the hyperedge labels in order, and the
resolved source/target structure: there is one renaming of node ids to
fresh uuids under which the output nodes are the input nodes renamed
and each output side is the input side with dangling references
dropped and surviving references renamed. -/
theorem wire_round_trip (s : JsonOlogSchema) (cit : Citation) (c : Nat)
    (hdist : (s.nodes.map JsonNodeSchema.id).Nodup) :
    (convert_olog_to_json (convert_json_olog_to_olog s cit c).1).title =
      s.title ∧
    (convert_olog_to_json (convert_json_olog_to_olog s cit c).1).nodes.map
      JsonNodeSchema.label = s.nodes.map JsonNodeSchema.label ∧
    (convert_olog_to_json
        (convert_json_olog_to_olog s cit c).1).hyperedges.map
      JsonHyperedgeSchema.label = s.hyperedges.map JsonHyperedgeSchema.label ∧
    ∃ ρ : IdStr → Uuid,
      (∀ a ∈ s.nodes.map JsonNodeSchema.id,
        ∀ b ∈ s.nodes.map JsonNodeSchema.id, ρ a = ρ b → a = b) ∧
      (convert_olog_to_json (convert_json_olog_to_olog s cit c).1).nodes =
        s.nodes.map (fun n => ⟨IdStr.valid (ρ n.id), n.label⟩) ∧
      (convert_olog_to_json
          (convert_json_olog_to_olog s cit c).1).hyperedges.map
        JsonHyperedgeSchema.sources =
        s.hyperedges.map (fun jh => jh.sources.filterMap (fun sid =>
          (s.nodes.find? (fun n => n.id = sid)).map
            (fun n => IdStr.valid (ρ n.id)))) ∧
      (convert_olog_to_json
          (convert_json_olog_to_olog s cit c).1).hyperedges.map
        JsonHyperedgeSchema.targets =
        s.hyperedges.map (fun jh => jh.targets.filterMap (fun sid =>
          (s.nodes.find? (fun n => n.id = sid)).map
            (fun n => IdStr.valid (ρ n.id)))) := by
  rcases hN : convertNodes s.nodes [] [] c with ⟨idm, nm, c1⟩
  have specs := convertNodes_spec s.nodes [] [] c hdist
    (fun jn _ => rfl) (fun q hq => absurd hq (List.not_mem_nil q))
    (fun p hp => absurd hp (List.not_mem_nil p)) (by simp)
  rw [hN] at specs
  simp only at specs
  obtain ⟨n1, n2, n3, n4, n5, n6, n7, n8, n9⟩ := specs
  rcases hH : convertHyperedges nm cit s.hyperedges idm c1 with
    ⟨hsOut, idm2, c2⟩
  have hshape := convertHyperedges_shape nm cit idm c1 n6 s.hyperedges [] c1
    (fun p hp => absurd hp (List.not_mem_nil p)) (le_refl c1)
    (by rw [List.append_nil]; exact n3)
  rw [List.append_nil, hH] at hshape
  simp only at hshape
  have hres : ∀ sid, (alookup idm sid).bind (fun u => alookup nm u) =
      (s.nodes.find? (fun n => n.id = sid)).map
        (fun n => Node.mk ((alookup idm n.id).getD 0) n.label) := by
    intro sid
    cases hf : s.nodes.find? (fun n => n.id = sid) with
    | some jn =>
      have hjn : jn ∈ s.nodes := List.mem_of_find?_eq_some hf
      have hpred : jn.id = sid := by simpa using List.find?_some hf
      obtain ⟨u, hu1, hu2⟩ := n8 jn hjn
      rw [← hpred]
      simp [hu1, hu2, Option.getD_some]
    | none =>
      have hnotin : sid ∉ s.nodes.map JsonNodeSchema.id := by
        intro hc
        obtain ⟨jn, hjn, hje⟩ := List.mem_map.mp hc
        have := List.find?_eq_none.mp hf jn hjn
        simp [hje] at this
      have hnone : alookup idm sid = none := n2 sid rfl hnotin
      simp [hnone]
  refine ⟨?_, ?_, ?_, fun i => (alookup idm i).getD 0, ?_, ?_, ?_, ?_⟩
  · simp only [convert_json_olog_to_olog, hN, hH, convert_olog_to_json]
  · simp only [convert_json_olog_to_olog, hN, hH, convert_olog_to_json]
    rw [n9]
    simp only [List.map_nil, List.nil_append, List.map_map]
    rfl
  · simp only [convert_json_olog_to_olog, hN, hH, convert_olog_to_json]
    rw [List.map_map]
    have h3 := congrArg (List.map Prod.fst) hshape
    rw [List.map_map, List.map_map] at h3
    exact h3
  · intro a ha b hb hab
    obtain ⟨jna, hjna, hjea⟩ := List.mem_map.mp ha
    obtain ⟨jnb, hjnb, hjeb⟩ := List.mem_map.mp hb
    obtain ⟨ua, hua1, -⟩ := n8 jna hjna
    obtain ⟨ub, hub1, -⟩ := n8 jnb hjnb
    rw [← hjea, ← hjeb] at hab ⊢
    simp only at hab
    rw [hua1, hub1] at hab
    simp only [Option.getD_some] at hab
    exact alookup_inj n4 hua1 (hab ▸ hub1)
  · simp only [convert_json_olog_to_olog, hN, hH, convert_olog_to_json]
    rw [n9]
    simp only [List.map_nil, List.nil_append, List.map_map]
    rfl
  · simp only [convert_json_olog_to_olog, hN, hH, convert_olog_to_json]
    rw [List.map_map]
    have hsrcs := congrArg (List.map
      (fun p : String × List Node × List Node => p.2.1)) hshape
    rw [List.map_map, List.map_map] at hsrcs
    have hstep := congrArg (List.map
      (List.map (fun n : Node => IdStr.valid n.id))) hsrcs
    rw [List.map_map, List.map_map] at hstep
    have hfix : ∀ jh ∈ s.hyperedges,
        ((List.map (fun n : Node => IdStr.valid n.id)) ∘
          (fun p : String × List Node × List Node => p.2.1) ∘
          (fun jh : JsonHyperedgeSchema => (jh.label,
            jh.sources.filterMap (fun sid =>
              (alookup idm sid).bind (fun u => alookup nm u)),
            jh.targets.filterMap (fun sid =>
              (alookup idm sid).bind (fun u => alookup nm u))))) jh =
        jh.sources.filterMap (fun sid =>
          (s.nodes.find? (fun n => n.id = sid)).map
            (fun n => IdStr.valid ((alookup idm n.id).getD 0))) := by
      intro jh _
      show (jh.sources.filterMap (fun sid =>
          (alookup idm sid).bind (fun u => alookup nm u))).map
          (fun n : Node => IdStr.valid n.id) = _
      rw [List.map_filterMap]
      apply filterMap_congr_mem
      intro sid _
      rw [hres sid, Option.map_map]
      rfl
    exact hstep.trans (map_congr_mem hfix)
  · simp only [convert_json_olog_to_olog, hN, hH, convert_olog_to_json]
    rw [List.map_map]
    have htgts := congrArg (List.map
      (fun p : String × List Node × List Node => p.2.2)) hshape
    rw [List.map_map, List.map_map] at htgts
    have hstep := congrArg (List.map
      (List.map (fun n : Node => IdStr.valid n.id))) htgts
    rw [List.map_map, List.map_map] at hstep
    have hfix : ∀ jh ∈ s.hyperedges,
        ((List.map (fun n : Node => IdStr.valid n.id)) ∘
          (fun p : String × List Node × List Node => p.2.2) ∘
          (fun jh : JsonHyperedgeSchema => (jh.label,
            jh.sources.filterMap (fun sid =>
              (alookup idm sid).bind (fun u => alookup nm u)),
            jh.targets.filterMap (fun sid =>
              (alookup idm sid).bind (fun u => alookup nm u))))) jh =
        jh.targets.filterMap (fun sid =>
          (s.nodes.find? (fun n => n.id = sid)).map
            (fun n => IdStr.valid ((alookup idm n.id).getD 0))) := by
      intro jh _
      show (jh.targets.filterMap (fun sid =>
          (alookup idm sid).bind (fun u => alookup nm u))).map
          (fun n : Node => IdStr.valid n.id) = _
      rw [List.map_filterMap]
      apply filterMap_congr_mem
      intro sid _
      rw [hres sid, Option.map_map]
      rfl
    exact hstep.trans (map_congr_mem hfix)

/-- Witness for the wire round-trip theorem on a concrete two-node,
one-hyperedge schema with one dangling source reference. -/
theorem wire_round_trip_witness :
    ((JsonOlogSchema.mk "t"
        [⟨IdStr.invalid "n1", "A"⟩, ⟨IdStr.invalid "n2", "B"⟩]
        [⟨IdStr.invalid "e1", "E",
          [IdStr.invalid "n1", IdStr.invalid "zz"],
          [IdStr.invalid "n2"]⟩]).nodes.map JsonNodeSchema.id).Nodup ∧
    ((convert_olog_to_json (convert_json_olog_to_olog
        (JsonOlogSchema.mk "t"
          [⟨IdStr.invalid "n1", "A"⟩, ⟨IdStr.invalid "n2", "B"⟩]
          [⟨IdStr.invalid "e1", "E",
            [IdStr.invalid "n1", IdStr.invalid "zz"],
            [IdStr.invalid "n2"]⟩])
        (Citation.mk 99 "ct" "cl" "cx") 0).1).title = "t" ∧
      (convert_olog_to_json (convert_json_olog_to_olog
        (JsonOlogSchema.mk "t"
          [⟨IdStr.invalid "n1", "A"⟩, ⟨IdStr.invalid "n2", "B"⟩]
          [⟨IdStr.invalid "e1", "E",
            [IdStr.invalid "n1", IdStr.invalid "zz"],
            [IdStr.invalid "n2"]⟩])
        (Citation.mk 99 "ct" "cl" "cx") 0).1).nodes.map
        JsonNodeSchema.label = ["A", "B"] ∧
      (convert_olog_to_json (convert_json_olog_to_olog
        (JsonOlogSchema.mk "t"
          [⟨IdStr.invalid "n1", "A"⟩, ⟨IdStr.invalid "n2", "B"⟩]
          [⟨IdStr.invalid "e1", "E",
            [IdStr.invalid "n1", IdStr.invalid "zz"],
            [IdStr.invalid "n2"]⟩])
        (Citation.mk 99 "ct" "cl" "cx") 0).1).hyperedges.map
        JsonHyperedgeSchema.label = ["E"] ∧
      ∃ ρ : IdStr → Uuid,
        (∀ a ∈ [IdStr.invalid "n1", IdStr.invalid "n2"],
          ∀ b ∈ [IdStr.invalid "n1", IdStr.invalid "n2"],
          ρ a = ρ b → a = b) ∧
        (convert_olog_to_json (convert_json_olog_to_olog
          (JsonOlogSchema.mk "t"
            [⟨IdStr.invalid "n1", "A"⟩, ⟨IdStr.invalid "n2", "B"⟩]
            [⟨IdStr.invalid "e1", "E",
              [IdStr.invalid "n1", IdStr.invalid "zz"],
              [IdStr.invalid "n2"]⟩])
          (Citation.mk 99 "ct" "cl" "cx") 0).1).nodes =
          [⟨IdStr.valid (ρ (IdStr.invalid "n1")), "A"⟩,
           ⟨IdStr.valid (ρ (IdStr.invalid "n2")), "B"⟩] ∧
        (convert_olog_to_json (convert_json_olog_to_olog
          (JsonOlogSchema.mk "t"
            [⟨IdStr.invalid "n1", "A"⟩, ⟨IdStr.invalid "n2", "B"⟩]
            [⟨IdStr.invalid "e1", "E",
              [IdStr.invalid "n1", IdStr.invalid "zz"],
              [IdStr.invalid "n2"]⟩])
          (Citation.mk 99 "ct" "cl" "cx") 0).1).hyperedges.map
          JsonHyperedgeSchema.sources =
          [[IdStr.valid (ρ (IdStr.invalid "n1"))]] ∧
        (convert_olog_to_json (convert_json_olog_to_olog
          (JsonOlogSchema.mk "t"
            [⟨IdStr.invalid "n1", "A"⟩, ⟨IdStr.invalid "n2", "B"⟩]
            [⟨IdStr.invalid "e1", "E",
              [IdStr.invalid "n1", IdStr.invalid "zz"],
              [IdStr.invalid "n2"]⟩])
          (Citation.mk 99 "ct" "cl" "cx") 0).1).hyperedges.map
          JsonHyperedgeSchema.targets =
          [[IdStr.valid (ρ (IdStr.invalid "n2"))]]) := by
  refine ⟨by decide, ?_⟩
  obtain ⟨h1, h2, h3, ρ, h4, h5, h6, h7⟩ :=
    wire_round_trip
      (JsonOlogSchema.mk "t"
        [⟨IdStr.invalid "n1", "A"⟩, ⟨IdStr.invalid "n2", "B"⟩]
        [⟨IdStr.invalid "e1", "E",
          [IdStr.invalid "n1", IdStr.invalid "zz"],
          [IdStr.invalid "n2"]⟩])
      (Citation.mk 99 "ct" "cl" "cx") 0 (by decide)
  refine ⟨h1, ?_, h3, ρ, ?_, ?_, ?_, ?_⟩
  · rw [h2]; rfl
  · intro a ha b hb hab
    exact h4 a (by simpa using ha) b (by simpa using hb) hab
  · rw [h5]; rfl
  · rw [h6]; rfl
  · rw [h7]; rfl
